import Mathlib

/-!
Verification of the STK Produktion simulation engine
(`src/task1_solution/stk_simulation.py`) against its natural-language
specification.

The Python source is shallowly embedded:
* Python `float` values are modelled as exact rationals (`ℚ`); the claims
  under study are control-flow and data-flow properties, not facts about
  IEEE rounding.
* Python dicts are modelled as association lists whose update keeps the
  position of an existing key (matching dict insertion-order semantics);
  Python sets are modelled as duplicate-free lists in insertion order.
* A user calculation function that raises is modelled as returning `none`.
* Recursive procedures are embedded structurally with an explicit fuel
  argument; the fuel chosen in each wrapper is proved sufficient, so the
  embedded function agrees with the unbounded Python recursion.
-/

namespace STK

/-- Numeric values (Python floats), modelled as exact rationals. -/
abbrev Value := ℚ

/-! ### Strings: `str.lower` and the `in` substring test -/

/-- `lstarts pat l` : `pat` is a leading segment of `l` (Python `startswith`). -/
def lstarts : List Char → List Char → Bool
  | [], _ => true
  | _ :: _, [] => false
  | a :: as, b :: bs => a == b && lstarts as bs

/-- `lsub pat l` : `pat` occurs contiguously inside `l` (Python `in` on strings). -/
def lsub (pat : List Char) : List Char → Bool
  | [] => pat.isEmpty
  | c :: rest => lstarts pat (c :: rest) || lsub pat rest

/-- Python `s.lower()`. -/
def pyLower (s : String) : List Char :=
  s.data.map Char.toLower

/-- Python `pat in s.lower()` for a (lower-case) literal `pat`. -/
def pyInLower (pat : String) (s : String) : Bool :=
  lsub pat.data (pyLower s)

/-! ### Association lists (Python dicts, insertion ordered) -/

/-- Dict lookup `d.get(k)` (absent key gives `none`). -/
def alookup {α : Type} : List (String × α) → String → Option α
  | [], _ => none
  | (k, v) :: rest, key => if key = k then some v else alookup rest key

/-- Dict assignment `d[k] = v`: replaces the value at an existing key in
place (keeping its position), appends to the end for a fresh key. -/
def aset {α : Type} : List (String × α) → String → α → List (String × α)
  | [], key, v => [(key, v)]
  | (k, w) :: rest, key, v =>
    if key = k then (k, v) :: rest else (k, w) :: aset rest key v

/-! ### The dependency graph (`class DependencyGraph`) -/

/-- `DependencyGraph`: a node set and forward/reverse edge maps.  The node
set is a duplicate-free list in insertion order; the two edge dicts of the
source are modelled as duplicate-free edge lists (`(u, v) ∈ edges` iff the
source has `v ∈ self.edges[u]`, and `(v, u) ∈ redges` iff
`u ∈ self.reverse_edges[v]`). -/
structure DependencyGraph where
  nodes : List String
  edges : List (String × String)
  redges : List (String × String)
deriving Repr, DecidableEq

/-- `DependencyGraph.__init__`. -/
def DependencyGraph.empty : DependencyGraph :=
  { nodes := [], edges := [], redges := [] }

/-- Set insertion `s.add(x)` (no-op when present, appends otherwise). -/
def sadd {α : Type} [DecidableEq α] (l : List α) (x : α) : List α :=
  if x ∈ l then l else l ++ [x]

/-- `DependencyGraph.add_dependency(dependent, dependency)`: records the
forward edge `dependency → dependent` and the reverse edge. -/
def DependencyGraph.add_dependency (g : DependencyGraph)
    (dependent dependency : String) : DependencyGraph :=
  { nodes := sadd (sadd g.nodes dependent) dependency
    edges := sadd g.edges (dependency, dependent)
    redges := sadd g.redges (dependent, dependency) }

/-- The forward-neighbour list `self.edges[node]`. -/
def succs (g : DependencyGraph) (u : String) : List String :=
  (g.edges.filter (fun e => e.1 = u)).map (fun e => e.2)

/-- The forward-edge relation `u → v` (`u` is a dependency of `v`). -/
def EdgeP (g : DependencyGraph) (u v : String) : Prop :=
  (u, v) ∈ g.edges

instance (g : DependencyGraph) (u v : String) : Decidable (EdgeP g u v) := by
  unfold EdgeP; infer_instance

/-- Well-formedness: node list duplicate-free, edge list duplicate-free and
between registered nodes.  Every graph the engine builds (via `add_dependency`
and direct `nodes.add` during block registration) satisfies this. -/
def GraphWF (g : DependencyGraph) : Prop :=
  g.nodes.Nodup ∧ g.edges.Nodup ∧
    ∀ e ∈ g.edges, e.1 ∈ g.nodes ∧ e.2 ∈ g.nodes

instance (g : DependencyGraph) : Decidable (GraphWF g) := by
  unfold GraphWF; infer_instance

/-- The graph has no directed cycle (no nonempty walk from a node to itself). -/
def Acyclic (g : DependencyGraph) : Prop :=
  ∀ u, ¬ Relation.TransGen (EdgeP g) u u

/-! ### `find_cycles`: DFS with a recursion stack

In the source, `rec_stack` always holds exactly the nodes of the current
`path` (each recursive call passes `path.copy()` with itself appended and
adds/removes itself from `rec_stack` around the loop), so the membership
test `node in rec_stack` is embedded as `node ∈ path`.  The recursion over
a node's neighbour list is embedded as recursion over a worklist; the fuel
decreases on every step and `findCyclesFuel` is proved sufficient. -/

/-- Python `list.index`: position of the first occurrence. -/
def pindex : List String → String → Nat
  | [], _ => 0
  | x :: rest, a => if a = x then 0 else pindex rest a + 1

/-- The cycle slice `path[path.index(node):] + [node]`. -/
def cycleSlice (path : List String) (node : String) : List String :=
  path.drop (pindex path node) ++ [node]

/-- One DFS traversal: process the worklist `ns` of nodes, all reached with
the recursion path `path`; `vis` is the global `visited` set and `cyc` the
accumulated cycle list.  Mirrors `dfs` of `find_cycles`. -/
def dfsGo (g : DependencyGraph) :
    Nat → List String → List String → List String → List (List String) →
      List String × List (List String)
  | 0, _, _, vis, cyc => (vis, cyc)
  | _ + 1, [], _, vis, cyc => (vis, cyc)
  | fuel + 1, node :: ns, path, vis, cyc =>
    if node ∈ path then
      dfsGo g fuel ns path vis (cyc ++ [cycleSlice path node])
    else if node ∈ vis then
      dfsGo g fuel ns path vis cyc
    else
      let r := dfsGo g fuel (succs g node) (path ++ [node]) (vis ++ [node]) cyc
      dfsGo g fuel ns path r.1 r.2

/-- Weight of an unvisited node in the fuel potential: one step to expand
it plus one step per forward neighbour. -/
def phiW (g : DependencyGraph) (v : String) : Nat :=
  1 + (succs g v).length

/-- Fuel potential of a DFS state: pending worklist plus the total residual
work of all unvisited nodes.  The fuel decreases by one on every step of
`dfsGo` while the potential decreases at least as fast, so starting from
fuel above the initial potential the fuel never runs out (proved below). -/
def phi (g : DependencyGraph) (vis ns : List String) : Nat :=
  ns.length + ((g.nodes.filter (fun v => decide (v ∉ vis))).map (phiW g)).sum

/-- Fuel sufficient for the whole traversal. -/
def findCyclesFuel (g : DependencyGraph) : Nat :=
  phi g [] g.nodes + 1

/-- `DependencyGraph.find_cycles`: DFS from every node (the outer loop's
`if node not in visited` guard is semantically redundant, because `dfs`
itself returns immediately on a visited node with an empty path). -/
def find_cycles (g : DependencyGraph) : List (List String) :=
  (dfsGo g (findCyclesFuel g) g.nodes [] [] []).2

/-! ### `topological_sort`: Kahn's algorithm -/

/-- `in_degree[w] += 1` on a functional dict. -/
def bump (d : String → Int) (w : String) : String → Int :=
  fun x => if x = w then d x + 1 else d x

/-- The in-degree dict after the two initialisation loops: all nodes start
at `0`, then every forward edge `u → v` (reached as `v ∈ self.edges[u]`)
bumps `v`. -/
def inDegInit (g : DependencyGraph) : String → Int :=
  g.nodes.foldl (fun d u => (succs g u).foldl bump d) (fun _ => 0)

/-- The inner loop of Kahn's algorithm: decrement the in-degree of every
forward neighbour of the popped node, enqueueing those that reach `0`. -/
def processSuccs : List String → (String → Int) → List String →
    (String → Int) × List String
  | [], d, q => (d, q)
  | w :: ws, d, q =>
    let d' : String → Int := fun x => if x = w then d x - 1 else d x
    processSuccs ws d' (if d' w = 0 then q ++ [w] else q)

/-- The `while queue` loop; fuel `g.nodes.length` is proved sufficient. -/
def kahnLoop (g : DependencyGraph) :
    Nat → List String → (String → Int) → List String → List String
  | 0, _, _, result => result
  | _ + 1, [], _, result => result
  | fuel + 1, node :: rest, d, result =>
    let p := processSuccs (succs g node) d rest
    kahnLoop g fuel p.2 p.1 (result ++ [node])

/-- The two failure modes of `topological_sort` (`ValueError`s in the
source): cycles detected up front, or nodes left over after the loop. -/
inductive TopoErr where
  | cycleDetected (cycles : List (List String))
  | unexpectedCycle (remaining : List String)
deriving Repr, DecidableEq

/-- The Kahn phase of `topological_sort`: the queue starts with the
in-degree-zero nodes and the loop (fuel `g.nodes.length`, proved
sufficient) processes the whole queue. -/
def kahnResult (g : DependencyGraph) : List String :=
  kahnLoop g g.nodes.length
    (g.nodes.filter (fun n => inDegInit g n = 0)) (inDegInit g) []

/-- `DependencyGraph.topological_sort`. -/
def topological_sort (g : DependencyGraph) : Except TopoErr (List String) :=
  if g.nodes.isEmpty then .ok []
  else if (find_cycles g).isEmpty then
    if (kahnResult g).length = g.nodes.length then .ok (kahnResult g)
    else .error (.unexpectedCycle (g.nodes.filter (fun n => n ∉ kahnResult g)))
  else .error (.cycleDetected (find_cycles g))

/-! ### Basic lemmas about the graph embedding -/

theorem mem_sadd {α : Type} [DecidableEq α] {l : List α} {x y : α} :
    y ∈ sadd l x ↔ y ∈ l ∨ y = x := by
  unfold sadd
  split
  · constructor
    · exact fun h => Or.inl h
    · rintro (h | rfl) <;> assumption
  · simp [or_comm]

theorem sadd_nodup {α : Type} [DecidableEq α] {l : List α} (h : l.Nodup)
    (x : α) : (sadd l x).Nodup := by
  unfold sadd
  split
  · exact h
  · simpa [List.nodup_append] using ⟨h, by assumption⟩

theorem GraphWF.empty : GraphWF DependencyGraph.empty := by
  constructor <;> simp [DependencyGraph.empty, GraphWF]

theorem GraphWF.add_dependency {g : DependencyGraph} (h : GraphWF g)
    (dependent dependency : String) :
    GraphWF (g.add_dependency dependent dependency) := by
  obtain ⟨hn, he, hm⟩ := h
  refine ⟨sadd_nodup (sadd_nodup hn _) _, sadd_nodup he _, ?_⟩
  intro e hmem
  rcases mem_sadd.mp hmem with hold | rfl
  · obtain ⟨h1, h2⟩ := hm e hold
    exact ⟨mem_sadd.mpr (Or.inl (mem_sadd.mpr (Or.inl h1))),
      mem_sadd.mpr (Or.inl (mem_sadd.mpr (Or.inl h2)))⟩
  · exact ⟨mem_sadd.mpr (Or.inr rfl),
      mem_sadd.mpr (Or.inl (mem_sadd.mpr (Or.inr rfl)))⟩

theorem mem_succs {g : DependencyGraph} {u v : String} :
    v ∈ succs g u ↔ EdgeP g u v := by
  unfold succs EdgeP
  simp only [List.mem_map, List.mem_filter]
  constructor
  · rintro ⟨⟨a, b⟩, ⟨hmem, heq⟩, rfl⟩
    simpa [show a = u from by simpa using heq] using hmem
  · intro h
    exact ⟨(u, v), ⟨h, by simp⟩, rfl⟩

theorem edge_nodes {g : DependencyGraph} (h : GraphWF g) {u v : String}
    (he : EdgeP g u v) : u ∈ g.nodes ∧ v ∈ g.nodes :=
  h.2.2 _ he

theorem pindex_cons_self {l : List String} {a : String} :
    pindex (a :: l) a = 0 := by simp [pindex]

theorem pindex_lt_length {l : List String} {a : String} (h : a ∈ l) :
    pindex l a < l.length := by
  induction l with
  | nil => cases h
  | cons x rest ih =>
    by_cases hax : a = x
    · simp [pindex, hax]
    · rcases List.mem_cons.mp h with h1 | h2
      · exact absurd h1 hax
      · simpa [pindex, hax] using ih h2

theorem drop_pindex {l : List String} {a : String} (h : a ∈ l) :
    ∃ t, l.drop (pindex l a) = a :: t := by
  induction l with
  | nil => cases h
  | cons x rest ih =>
    by_cases hax : a = x
    · exact ⟨rest, by simp [pindex, hax]⟩
    · rcases List.mem_cons.mp h with h1 | h2
      · exact absurd h1 hax
      · simpa [pindex, hax] using ih h2

/-- A genuine cycle: at least two entries, consecutive entries joined by
forward edges, and the first entry equal to the last. -/
def GenuineCycle (g : DependencyGraph) (c : List String) : Prop :=
  2 ≤ c.length ∧ c.Chain' (EdgeP g) ∧ c.head? = c.getLast?

theorem cycleSlice_genuine {g : DependencyGraph} {path : List String}
    {node : String} (hmem : node ∈ path)
    (hch : (path ++ [node]).Chain' (EdgeP g)) :
    GenuineCycle g (cycleSlice path node) := by
  obtain ⟨t, ht⟩ := drop_pindex hmem
  have hlt := pindex_lt_length hmem
  have hslice : cycleSlice path node = (path ++ [node]).drop (pindex path node) := by
    unfold cycleSlice
    rw [List.drop_append_of_le_length (le_of_lt hlt)]
  refine ⟨?_, ?_, ?_⟩
  · unfold cycleSlice
    have : 1 ≤ (path.drop (pindex path node)).length := by
      rw [ht]; simp
    simpa using Nat.add_le_add this (le_refl 1)
  · rw [hslice]
    have := (List.take_append_drop (pindex path node) (path ++ [node])) ▸ hch
    exact (List.chain'_append.mp this).2.1
  · unfold cycleSlice
    rw [ht]
    have hl : ((node :: t) ++ [node]).getLast? = some node := by
      rw [List.getLast?_append_cons]; rfl
    simpa using hl.symm

/-! ### DFS: monotonicity and soundness -/

theorem dfsGo_mono (g : DependencyGraph) :
    ∀ fuel ns path vis cyc, ∃ dv dc,
      (dfsGo g fuel ns path vis cyc).1 = vis ++ dv ∧
      (dfsGo g fuel ns path vis cyc).2 = cyc ++ dc := by
  intro fuel
  induction fuel with
  | zero => intro ns path vis cyc; exact ⟨[], [], by simp [dfsGo], by simp [dfsGo]⟩
  | succ fuel ih =>
    intro ns path vis cyc
    cases ns with
    | nil => exact ⟨[], [], by simp [dfsGo], by simp [dfsGo]⟩
    | cons node ns =>
      by_cases hp : node ∈ path
      · obtain ⟨dv, dc, h1, h2⟩ := ih ns path vis (cyc ++ [cycleSlice path node])
        exact ⟨dv, cycleSlice path node :: dc, by simpa [dfsGo, hp] using h1,
          by simpa [dfsGo, hp] using h2⟩
      · by_cases hv : node ∈ vis
        · obtain ⟨dv, dc, h1, h2⟩ := ih ns path vis cyc
          exact ⟨dv, dc, by simpa [dfsGo, hp, hv] using h1,
            by simpa [dfsGo, hp, hv] using h2⟩
        · obtain ⟨dv1, dc1, h1, h2⟩ := ih (succs g node) (path ++ [node]) (vis ++ [node]) cyc
          obtain ⟨dv2, dc2, h3, h4⟩ := ih ns path
            (dfsGo g fuel (succs g node) (path ++ [node]) (vis ++ [node]) cyc).1
            (dfsGo g fuel (succs g node) (path ++ [node]) (vis ++ [node]) cyc).2
          refine ⟨[node] ++ dv1 ++ dv2, dc1 ++ dc2, ?_, ?_⟩
          · simp only [dfsGo, if_neg hp, if_neg hv]
            rw [h3, h1]; simp
          · simp only [dfsGo, if_neg hp, if_neg hv]
            rw [h4, h2]; simp

theorem dfsGo_sound (g : DependencyGraph) :
    ∀ fuel ns path vis cyc,
      (∀ n ∈ ns, (path ++ [n]).Chain' (EdgeP g)) →
      (∀ c ∈ cyc, GenuineCycle g c) →
      ∀ c ∈ (dfsGo g fuel ns path vis cyc).2, GenuineCycle g c := by
  intro fuel
  induction fuel with
  | zero => intro ns path vis cyc _ hc; simpa [dfsGo] using hc
  | succ fuel ih =>
    intro ns path vis cyc hch hc
    cases ns with
    | nil => simpa [dfsGo] using hc
    | cons node ns =>
      by_cases hp : node ∈ path
      · simp only [dfsGo, if_pos hp]
        refine ih ns path vis _ (fun n hn => hch n (List.mem_cons_of_mem _ hn)) ?_
        intro c hcmem
        rcases List.mem_append.mp hcmem with hold | hnew
        · exact hc c hold
        · have : c = cycleSlice path node := by simpa using hnew
          subst this
          exact cycleSlice_genuine hp (hch node (List.mem_cons_self _ _))
      · by_cases hv : node ∈ vis
        · simp only [dfsGo, if_neg hp, if_pos hv]
          exact ih ns path vis cyc (fun n hn => hch n (List.mem_cons_of_mem _ hn)) hc
        · simp only [dfsGo, if_neg hp, if_neg hv]
          refine ih ns path _ _ (fun n hn => hch n (List.mem_cons_of_mem _ hn)) ?_
          refine ih (succs g node) (path ++ [node]) (vis ++ [node]) cyc ?_ hc
          intro y hy
          have hedge : EdgeP g node y := mem_succs.mp hy
          have hbase : ((path ++ [node]) ++ [y]).Chain' (EdgeP g) := by
            rw [List.chain'_append]
            refine ⟨hch node (List.mem_cons_self _ _), List.chain'_singleton y, ?_⟩
            intro x hx y' hy'
            have hx' : x = node := by
              have := List.getLast?_append_cons path node []
              simp only [this] at hx
              simpa using hx.symm
            have hy'' : y' = y := by simpa using hy'.symm
            rw [hx', hy'']
            exact hedge
          simpa using hbase

/-! ### DFS: completeness invariants -/

/-- Every finished ("black") node — visited but not on the current
recursion path — has all forward neighbours finished as well. -/
def Closed (g : DependencyGraph) (vis path : List String) : Prop :=
  ∀ v ∈ vis, v ∉ path → ∀ w, EdgeP g v w → w ∈ vis ∧ w ∉ path

/-- No finished node lies on a directed cycle. -/
def BlackAcyclic (g : DependencyGraph) (vis path : List String) : Prop :=
  ∀ v ∈ vis, v ∉ path → ¬ Relation.TransGen (EdgeP g) v v

theorem black_reach {g : DependencyGraph} {vis path : List String}
    (hC : Closed g vis path) :
    ∀ {v w}, Relation.ReflTransGen (EdgeP g) v w → v ∈ vis → v ∉ path →
      w ∈ vis ∧ w ∉ path := by
  intro v w h
  induction h with
  | refl => exact fun hv hp => ⟨hv, hp⟩
  | tail _ he ih =>
    intro hv hp
    obtain ⟨hm, hmp⟩ := ih hv hp
    exact hC _ hm hmp _ he

theorem closed_extend {g : DependencyGraph} {vis path : List String}
    {node : String} (hC : Closed g vis path) (hnv : node ∉ vis) :
    Closed g (vis ++ [node]) (path ++ [node]) := by
  intro v hv hvp w he
  have hvvis : v ∈ vis := by
    rcases List.mem_append.mp hv with h | h
    · exact h
    · exfalso; apply hvp
      simp only [List.mem_singleton] at h
      simp [h]
  have hvnp : v ∉ path := fun hp => hvp (List.mem_append.mpr (Or.inl hp))
  obtain ⟨hw1, hw2⟩ := hC v hvvis hvnp w he
  refine ⟨List.mem_append.mpr (Or.inl hw1), ?_⟩
  intro hw
  rcases List.mem_append.mp hw with h | h
  · exact hw2 h
  · simp only [List.mem_singleton] at h
    subst h
    exact hnv hw1

theorem blackAcyclic_extend {g : DependencyGraph} {vis path : List String}
    {node : String} (hB : BlackAcyclic g vis path) :
    BlackAcyclic g (vis ++ [node]) (path ++ [node]) := by
  intro v hv hvp
  have hvvis : v ∈ vis := by
    rcases List.mem_append.mp hv with h | h
    · exact h
    · exfalso; apply hvp
      simp only [List.mem_singleton] at h
      simp [h]
  have hvnp : v ∉ path := fun hp => hvp (List.mem_append.mpr (Or.inl hp))
  exact hB v hvvis hvnp

theorem closed_pop {g : DependencyGraph} {vis path : List String}
    {node : String} (hC : Closed g vis (path ++ [node]))
    (hsucc : ∀ y ∈ succs g node, y ∈ vis ∧ y ∉ path ++ [node]) :
    Closed g vis path := by
  intro v hv hvp w he
  by_cases hvn : v = node
  · subst hvn
    obtain ⟨h1, h2⟩ := hsucc w (mem_succs.mpr he)
    exact ⟨h1, fun hw => h2 (List.mem_append.mpr (Or.inl hw))⟩
  · have hvp' : v ∉ path ++ [node] := by
      intro h
      rcases List.mem_append.mp h with h | h
      · exact hvp h
      · simp only [List.mem_singleton] at h; exact hvn h
    obtain ⟨h1, h2⟩ := hC v hv hvp' w he
    exact ⟨h1, fun hw => h2 (List.mem_append.mpr (Or.inl hw))⟩

theorem blackAcyclic_pop {g : DependencyGraph} {vis path : List String}
    {node : String} (hC : Closed g vis (path ++ [node]))
    (hB : BlackAcyclic g vis (path ++ [node]))
    (hsucc : ∀ y ∈ succs g node, y ∈ vis ∧ y ∉ path ++ [node]) :
    BlackAcyclic g vis path := by
  intro v hv hvp
  by_cases hvn : v = node
  · subst hvn
    intro htg
    obtain ⟨y, hny, hyt⟩ := Relation.TransGen.head'_iff.mp htg
    obtain ⟨hy1, hy2⟩ := hsucc y (mem_succs.mpr hny)
    obtain ⟨_, hcontra⟩ := black_reach hC hyt hy1 hy2
    exact hcontra (List.mem_append.mpr (Or.inr (by simp)))
  · have hvp' : v ∉ path ++ [node] := by
      intro h
      rcases List.mem_append.mp h with h | h
      · exact hvp h
      · simp only [List.mem_singleton] at h; exact hvn h
    exact hB v hv hvp'

theorem phi_le_of_subset (g : DependencyGraph) {vis vis' : List String}
    (h : ∀ x ∈ vis, x ∈ vis') (ns : List String) :
    phi g vis' ns ≤ phi g vis ns := by
  unfold phi
  have hsub : (g.nodes.filter (fun v => decide (v ∉ vis'))).Sublist
      (g.nodes.filter (fun v => decide (v ∉ vis))) := by
    apply List.monotone_filter_right
    intro a ha
    simp only [decide_eq_true_eq] at ha ⊢
    exact fun hmem => ha (h a hmem)
  have := List.Sublist.sum_le_sum (List.Sublist.map (phiW g) hsub)
    (by intro a _; exact Nat.zero_le a)
  omega

theorem filterSum_insert (f : String → Nat) :
    ∀ {l : List String}, l.Nodup → ∀ {vis : List String} {n : String},
      n ∈ l → n ∉ vis →
      ((l.filter (fun v => decide (v ∉ vis ++ [n]))).map f).sum + f n =
        ((l.filter (fun v => decide (v ∉ vis))).map f).sum := by
  intro l
  induction l with
  | nil => intro _ vis n hn; cases hn
  | cons x rest ih =>
    intro hnd vis n hn hnv
    have hxrest : x ∉ rest := (List.nodup_cons.mp hnd).1
    have hrest : rest.Nodup := (List.nodup_cons.mp hnd).2
    by_cases hxn : x = n
    · subst hxn
      have hfc : rest.filter (fun v => decide (v ∉ vis ++ [x])) =
          rest.filter (fun v => decide (v ∉ vis)) := by
        apply List.filter_congr
        intro a ha
        have hax : a ≠ x := fun h => hxrest (h ▸ ha)
        simp [List.mem_append, hax]
      have hx1 : ((x :: rest).filter (fun v => decide (v ∉ vis ++ [x]))) =
          rest.filter (fun v => decide (v ∉ vis ++ [x])) := by
        simp [List.filter_cons]
      have hx2 : ((x :: rest).filter (fun v => decide (v ∉ vis))) =
          x :: rest.filter (fun v => decide (v ∉ vis)) := by
        simp [List.filter_cons, hnv]
      rw [hx1, hx2, hfc]
      simp only [List.map_cons, List.sum_cons]
      omega
    · have hnrest : n ∈ rest := by
        rcases List.mem_cons.mp hn with h | h
        · exact absurd h.symm hxn
        · exact h
      have heq : (decide (x ∉ vis ++ [n])) = (decide (x ∉ vis)) := by
        simp [List.mem_append, hxn]
      by_cases hxv : x ∉ vis
      · have e1 : ((x :: rest).filter (fun v => decide (v ∉ vis))) =
            x :: rest.filter (fun v => decide (v ∉ vis)) := by
          simp [List.filter_cons, hxv]
        have e2 : ((x :: rest).filter (fun v => decide (v ∉ vis ++ [n]))) =
            x :: rest.filter (fun v => decide (v ∉ vis ++ [n])) := by
          simp [List.filter_cons, List.mem_append, hxv, hxn]
        rw [e1, e2]
        simp only [List.map_cons, List.sum_cons]
        have := ih hrest hnrest hnv
        omega
      · have hxv' : x ∈ vis := not_not.mp hxv
        have e1 : ((x :: rest).filter (fun v => decide (v ∉ vis))) =
            rest.filter (fun v => decide (v ∉ vis)) := by
          simp [List.filter_cons, hxv']
        have e2 : ((x :: rest).filter (fun v => decide (v ∉ vis ++ [n]))) =
            rest.filter (fun v => decide (v ∉ vis ++ [n])) := by
          simp [List.filter_cons, List.mem_append, hxv']
        rw [e1, e2]
        exact ih hrest hnrest hnv

theorem append_ne_left {α : Type} {cyc l : List α} (h : l ≠ []) :
    cyc ++ l ≠ cyc := by
  intro he
  apply h
  have := congrArg List.length he
  simp only [List.length_append] at this
  exact List.eq_nil_of_length_eq_zero (by omega)

theorem append_eq_left_nil {α : Type} {cyc l : List α} (h : cyc ++ l = cyc) :
    l = [] := by
  by_contra hne
  exact append_ne_left hne h

/-- Main DFS invariant lemma.  For a call with enough fuel and invariant
state: (1) if no cycle is appended, the closure invariants persist and every
worklist node ends up finished; (2) if some worklist node reaches itself or
reaches the current recursion path, a cycle is appended. -/
theorem dfsGo_main (g : DependencyGraph) (hwf : GraphWF g) :
    ∀ fuel ns path vis cyc,
      (∀ n ∈ ns, n ∈ g.nodes) →
      (∀ x ∈ path, x ∈ vis) →
      Closed g vis path →
      BlackAcyclic g vis path →
      phi g vis ns + 1 ≤ fuel →
      ((dfsGo g fuel ns path vis cyc).2 = cyc →
         Closed g (dfsGo g fuel ns path vis cyc).1 path ∧
         BlackAcyclic g (dfsGo g fuel ns path vis cyc).1 path ∧
         ∀ n ∈ ns, n ∈ (dfsGo g fuel ns path vis cyc).1 ∧ n ∉ path) ∧
      (∀ n ∈ ns,
         (n ∈ path ∨ ∃ t, (t = n ∨ t ∈ path) ∧ Relation.TransGen (EdgeP g) n t) →
         (dfsGo g fuel ns path vis cyc).2 ≠ cyc) := by
  intro fuel
  induction fuel with
  | zero =>
    intro ns path vis cyc _ _ _ _ hfuel
    exact absurd hfuel (by omega)
  | succ fuel ih =>
    intro ns path vis cyc hns hpv hC hB hfuel
    cases ns with
    | nil =>
      have hstep : dfsGo g (fuel + 1) [] path vis cyc = (vis, cyc) := by
        simp only [dfsGo]
      rw [hstep]
      exact ⟨fun _ => ⟨hC, hB, by simp⟩, by simp⟩
    | cons node ns =>
      have hnode : node ∈ g.nodes := hns node (List.mem_cons_self _ _)
      have hnsr : ∀ n ∈ ns, n ∈ g.nodes := fun n hn => hns n (List.mem_cons_of_mem _ hn)
      have hphicons : phi g vis (node :: ns) = phi g vis ns + 1 := by
        unfold phi
        simp only [List.length_cons]
        omega
      by_cases hp : node ∈ path
      · have hstep : dfsGo g (fuel + 1) (node :: ns) path vis cyc =
            dfsGo g fuel ns path vis (cyc ++ [cycleSlice path node]) := by
          simp only [dfsGo]
          rw [if_pos hp]
        rw [hstep]
        obtain ⟨dv, dc, _, h2⟩ := dfsGo_mono g fuel ns path vis (cyc ++ [cycleSlice path node])
        have hne : (dfsGo g fuel ns path vis (cyc ++ [cycleSlice path node])).2 ≠ cyc := by
          rw [h2, List.append_assoc]
          exact append_ne_left (by simp)
        exact ⟨fun h => absurd h hne, fun n _ _ => hne⟩
      · by_cases hv : node ∈ vis
        · have hstep : dfsGo g (fuel + 1) (node :: ns) path vis cyc =
              dfsGo g fuel ns path vis cyc := by
            simp only [dfsGo]
            rw [if_neg hp, if_pos hv]
          rw [hstep]
          have hfuel' : phi g vis ns + 1 ≤ fuel := by omega
          obtain ⟨part1, part2⟩ := ih ns path vis cyc hnsr hpv hC hB hfuel'
          obtain ⟨dv, dc, hm1, _⟩ := dfsGo_mono g fuel ns path vis cyc
          refine ⟨?_, ?_⟩
          · intro h
            obtain ⟨c1, c2, c3⟩ := part1 h
            refine ⟨c1, c2, ?_⟩
            intro n hn
            rcases List.mem_cons.mp hn with rfl | hn'
            · exact ⟨by rw [hm1]; exact List.mem_append.mpr (Or.inl hv), hp⟩
            · exact c3 n hn'
          · intro n hn hH
            rcases List.mem_cons.mp hn with rfl | hn'
            · exfalso
              rcases hH with h | ⟨t, ht, htg⟩
              · exact hp h
              · rcases ht with rfl | htp
                · exact hB _ hv hp htg
                · obtain ⟨_, hcontra⟩ := black_reach hC htg.to_reflTransGen hv hp
                  exact hcontra htp
            · exact part2 n hn' hH
        · have hstep : dfsGo g (fuel + 1) (node :: ns) path vis cyc =
              dfsGo g fuel ns path
                (dfsGo g fuel (succs g node) (path ++ [node]) (vis ++ [node]) cyc).1
                (dfsGo g fuel (succs g node) (path ++ [node]) (vis ++ [node]) cyc).2 := by
            simp only [dfsGo]
            rw [if_neg hp, if_neg hv]
          rw [hstep]
          set r1 := dfsGo g fuel (succs g node) (path ++ [node]) (vis ++ [node]) cyc with hr1
          have hns1 : ∀ y ∈ succs g node, y ∈ g.nodes :=
            fun y hy => (edge_nodes hwf (mem_succs.mp hy)).2
          have hpv1 : ∀ x ∈ path ++ [node], x ∈ vis ++ [node] := by
            intro x hx
            rcases List.mem_append.mp hx with h | h
            · exact List.mem_append.mpr (Or.inl (hpv x h))
            · exact List.mem_append.mpr (Or.inr h)
          have hC1 := closed_extend hC hv
          have hB1 : BlackAcyclic g (vis ++ [node]) (path ++ [node]) :=
            blackAcyclic_extend hB
          have hsplit := filterSum_insert (phiW g) hwf.1 hnode hv
          have hphiw : phiW g node = 1 + (succs g node).length := rfl
          have hfuel1 : phi g (vis ++ [node]) (succs g node) + 1 ≤ fuel := by
            unfold phi at hfuel ⊢
            simp only [List.length_cons] at hfuel
            omega
          obtain ⟨IH1a, IH1b⟩ := ih (succs g node) (path ++ [node]) (vis ++ [node]) cyc
            hns1 hpv1 hC1 hB1 hfuel1
          obtain ⟨dv1, dc1, hm11, hm12⟩ := dfsGo_mono g fuel (succs g node)
            (path ++ [node]) (vis ++ [node]) cyc
          obtain ⟨dv2, dc2, hm21, hm22⟩ := dfsGo_mono g fuel ns path r1.1 r1.2
          by_cases hq : r1.2 = cyc
          · obtain ⟨cC, cB, cS⟩ := IH1a hq
            have hC2 : Closed g r1.1 path := closed_pop cC cS
            have hB2 : BlackAcyclic g r1.1 path := blackAcyclic_pop cC cB cS
            have hpv2 : ∀ x ∈ path, x ∈ r1.1 := by
              intro x hx
              rw [hm11]
              exact List.mem_append.mpr
                (Or.inl (List.mem_append.mpr (Or.inl (hpv x hx))))
            have hfuel2 : phi g r1.1 ns + 1 ≤ fuel := by
              have hle : phi g r1.1 ns ≤ phi g (vis ++ [node]) ns := by
                apply phi_le_of_subset
                intro x hx
                rw [hm11]
                exact List.mem_append.mpr (Or.inl hx)
              unfold phi at hle hfuel ⊢
              simp only [List.length_cons] at hfuel
              omega
            obtain ⟨IH2a, IH2b⟩ := ih ns path r1.1 r1.2 hnsr hpv2 hC2 hB2 hfuel2
            refine ⟨?_, ?_⟩
            · intro h
              obtain ⟨c1, c2, c3⟩ := IH2a (by rw [h, hq])
              refine ⟨c1, c2, ?_⟩
              intro n hn
              rcases List.mem_cons.mp hn with rfl | hn'
              · refine ⟨?_, hp⟩
                rw [hm21, hm11]
                exact List.mem_append.mpr (Or.inl (List.mem_append.mpr
                  (Or.inl (List.mem_append.mpr (Or.inr (by simp))))))
              · exact c3 n hn'
            · intro n hn hH
              rcases List.mem_cons.mp hn with rfl | hn'
              · rcases hH with h | ⟨t, ht, htg⟩
                · exact (hp h).elim
                · obtain ⟨y, hny, hyt⟩ := Relation.TransGen.head'_iff.mp htg
                  have hys : y ∈ succs g n := mem_succs.mpr hny
                  have hH' : y ∈ path ++ [n] ∨
                      ∃ t', (t' = y ∨ t' ∈ path ++ [n]) ∧
                        Relation.TransGen (EdgeP g) y t' := by
                    rcases Relation.reflTransGen_iff_eq_or_transGen.mp hyt with heq | htg'
                    · left
                      rcases ht with rfl | hh
                      · rw [heq]
                        exact List.mem_append.mpr (Or.inr (by simp))
                      · rw [heq] at hh
                        exact List.mem_append.mpr (Or.inl hh)
                    · right
                      refine ⟨t, ?_, htg'⟩
                      rcases ht with rfl | hh
                      · exact Or.inr (List.mem_append.mpr (Or.inr (by simp)))
                      · exact Or.inr (List.mem_append.mpr (Or.inl hh))
                  exact (IH1b y hys hH' hq).elim
              · intro hres
                exact IH2b n hn' hH (hres.trans hq.symm)
          · have hne : (dfsGo g fuel ns path r1.1 r1.2).2 ≠ cyc := by
              rw [hm22, hm12, List.append_assoc]
              apply append_ne_left
              intro hcontra
              apply hq
              rw [hm12, (List.append_eq_nil.mp hcontra).1]
              simp
            exact ⟨fun h => absurd h hne, fun n _ _ => hne⟩

/-! ### `find_cycles`: the two directions -/

theorem chain_getLast_transGen {g : DependencyGraph} :
    ∀ (l : List String) (a b : String), List.Chain (EdgeP g) a l →
      l.getLast? = some b → Relation.TransGen (EdgeP g) a b := by
  intro l
  induction l with
  | nil => intro a b _ h; simp at h
  | cons x rest ih =>
    intro a b hch hlast
    cases hch with
    | cons hax hrest =>
      cases rest with
      | nil =>
        simp only [List.getLast?_singleton, Option.some.injEq] at hlast
        exact hlast ▸ Relation.TransGen.single hax
      | cons y rest' =>
        rw [List.getLast?_cons_cons] at hlast
        exact Relation.TransGen.head hax (ih x b hrest hlast)

theorem genuine_transGen {g : DependencyGraph} {c : List String}
    (h : GenuineCycle g c) : ∃ u, Relation.TransGen (EdgeP g) u u := by
  obtain ⟨hlen, hch, hht⟩ := h
  cases c with
  | nil => simp at hlen
  | cons a rest =>
    cases rest with
    | nil => simp at hlen
    | cons x rest' =>
      have hchain : List.Chain (EdgeP g) a (x :: rest') := hch
      have hlast : (x :: rest').getLast? = some a := by
        rw [List.getLast?_cons_cons] at hht
        simpa using hht.symm
      exact ⟨a, chain_getLast_transGen _ a a hchain hlast⟩

theorem find_cycles_sound (g : DependencyGraph) :
    ∀ c ∈ find_cycles g, GenuineCycle g c := by
  unfold find_cycles
  apply dfsGo_sound
  · intro n _
    simp
  · intro c hc
    cases hc

theorem find_cycles_nonempty (g : DependencyGraph) (hwf : GraphWF g)
    (h : ¬ Acyclic g) : find_cycles g ≠ [] := by
  unfold Acyclic at h
  push_neg at h
  obtain ⟨u, hu⟩ := h
  have hun : u ∈ g.nodes := by
    obtain ⟨y, he, _⟩ := Relation.TransGen.head'_iff.mp hu
    exact (edge_nodes hwf he).1
  have hmain := (dfsGo_main g hwf (findCyclesFuel g) g.nodes [] [] []
    (fun _ hn => hn) (by simp)
    (fun v hv => absurd hv (List.not_mem_nil v))
    (fun v hv => absurd hv (List.not_mem_nil v))
    (by unfold findCyclesFuel; exact le_refl _)).2
  exact hmain u hun (Or.inr ⟨u, Or.inl rfl, hu⟩)

/-- `find_cycles` returns the empty list exactly on acyclic graphs. -/
theorem find_cycles_empty_iff (g : DependencyGraph) (hwf : GraphWF g) :
    find_cycles g = [] ↔ Acyclic g := by
  constructor
  · intro hempty
    by_contra hcyc
    exact find_cycles_nonempty g hwf hcyc hempty
  · intro hacyc
    by_contra hne
    obtain ⟨c, hc⟩ := List.exists_mem_of_ne_nil _ hne
    obtain ⟨u, hu⟩ := genuine_transGen (find_cycles_sound g c hc)
    exact hacyc u hu

/-! ### Kahn's algorithm: invariants -/

theorem pindex_append_left {l : List String} {x : String} (h : x ∈ l)
    (l' : List String) : pindex (l ++ l') x = pindex l x := by
  induction l with
  | nil => cases h
  | cons a rest ih =>
    by_cases hxa : x = a
    · simp [pindex, hxa]
    · rcases List.mem_cons.mp h with h1 | h2
      · exact absurd h1 hxa
      · simp [pindex, hxa, ih h2]

theorem pindex_append_self {l : List String} {x : String} (h : x ∉ l) :
    pindex (l ++ [x]) x = l.length := by
  induction l with
  | nil => simp [pindex]
  | cons a rest ih =>
    have hxa : x ≠ a := fun he => h (he ▸ List.mem_cons_self a rest)
    have hxr : x ∉ rest := fun hm => h (List.mem_cons_of_mem a hm)
    simp [pindex, hxa, ih hxr]

/-- Number of occurrences of `v` in the forward-neighbour list of `u`. -/
def countSucc (g : DependencyGraph) (u v : String) : Nat :=
  ((succs g u).filter (fun w => decide (w = v))).length

/-- Number of forward edges into `v` whose source is not yet in `result`
(counted through the node list, as the in-degree initialisation does). -/
def intoCount (g : DependencyGraph) (result : List String) (v : String) : Nat :=
  ((g.nodes.filter (fun u => decide (u ∉ result))).map
    (fun u => countSucc g u v)).sum

theorem countSucc_pos_iff {g : DependencyGraph} {u v : String} :
    0 < countSucc g u v ↔ EdgeP g u v := by
  unfold countSucc
  rw [List.length_pos]
  constructor
  · intro h
    obtain ⟨w, hw⟩ := List.exists_mem_of_ne_nil _ h
    have := List.mem_filter.mp hw
    have hwv : w = v := by simpa using this.2
    exact mem_succs.mp (hwv ▸ this.1)
  · intro h
    intro hnil
    have : v ∈ (succs g u).filter (fun w => decide (w = v)) :=
      List.mem_filter.mpr ⟨mem_succs.mpr h, by simp⟩
    rw [hnil] at this
    cases this

theorem intoCount_le_of_subset (g : DependencyGraph) {r r' : List String}
    (h : ∀ x ∈ r, x ∈ r') (v : String) :
    intoCount g r' v ≤ intoCount g r v := by
  unfold intoCount
  have hsub : (g.nodes.filter (fun u => decide (u ∉ r'))).Sublist
      (g.nodes.filter (fun u => decide (u ∉ r))) := by
    apply List.monotone_filter_right
    intro a ha
    simp only [decide_eq_true_eq] at ha ⊢
    exact fun hmem => ha (h a hmem)
  exact List.Sublist.sum_le_sum (List.Sublist.map _ hsub)
    (by intro a _; exact Nat.zero_le a)

theorem intoCount_pos_of_edge {g : DependencyGraph} (hwf : GraphWF g)
    {u v : String} (he : EdgeP g u v) {result : List String}
    (hu : u ∉ result) : 0 < intoCount g result v := by
  unfold intoCount
  have hun : u ∈ g.nodes := (edge_nodes hwf he).1
  have humem : u ∈ g.nodes.filter (fun x => decide (x ∉ result)) :=
    List.mem_filter.mpr ⟨hun, by simpa using hu⟩
  have hterm : countSucc g u v ∈ (g.nodes.filter (fun x => decide (x ∉ result))).map
      (fun x => countSucc g x v) := List.mem_map_of_mem _ humem
  have := List.single_le_sum (by intro a _; exact Nat.zero_le a) _ hterm
  have hpos := countSucc_pos_iff.mpr he
  omega

theorem intoCount_zero_pred_in {g : DependencyGraph} (hwf : GraphWF g)
    {v : String} {result : List String} (h : intoCount g result v = 0)
    {u : String} (he : EdgeP g u v) : u ∈ result := by
  by_contra hu
  have := intoCount_pos_of_edge hwf he hu
  omega

theorem intoCount_pos_elim {g : DependencyGraph} {result : List String}
    {v : String} (h : 0 < intoCount g result v) :
    ∃ u, u ∈ g.nodes ∧ u ∉ result ∧ EdgeP g u v := by
  unfold intoCount at h
  by_contra hall
  push_neg at hall
  have hzero : ((g.nodes.filter (fun u => decide (u ∉ result))).map
      (fun u => countSucc g u v)).sum = 0 := by
    apply List.sum_eq_zero
    intro x hx
    obtain ⟨u, hu, rfl⟩ := List.mem_map.mp hx
    have hmem := List.mem_filter.mp hu
    have hnr : u ∉ result := by simpa using hmem.2
    by_contra hne
    have hpos : 0 < countSucc g u v := Nat.pos_of_ne_zero hne
    exact absurd (countSucc_pos_iff.mp hpos) (hall u hmem.1 hnr)
  omega

theorem foldl_bump_apply :
    ∀ (l : List String) (d : String → Int) (v : String),
      (l.foldl bump d) v = d v + ((l.filter (fun w => decide (w = v))).length : Int) := by
  intro l
  induction l with
  | nil => intro d v; simp
  | cons w ws ih =>
    intro d v
    rw [List.foldl_cons, ih (bump d w) v]
    by_cases hwv : w = v
    · subst hwv
      have h1 : bump d w w = d w + 1 := by simp [bump]
      have hf : ((w :: ws).filter (fun x => decide (x = w))) =
          w :: ws.filter (fun x => decide (x = w)) := by
        simp [List.filter_cons]
      rw [h1, hf]
      simp only [List.length_cons]
      push_cast
      ring
    · have h1 : bump d w v = d v := by
        unfold bump
        rw [if_neg (fun h => hwv h.symm)]
      have hf : ((w :: ws).filter (fun x => decide (x = v))) =
          ws.filter (fun x => decide (x = v)) := by
        simp [List.filter_cons, hwv]
      rw [h1, hf]

theorem foldl_inDeg_apply (g : DependencyGraph) :
    ∀ (K : List String) (d : String → Int) (v : String),
      (K.foldl (fun d u => (succs g u).foldl bump d) d) v =
        d v + ((K.map (fun u => countSucc g u v)).sum : Int) := by
  intro K
  induction K with
  | nil => intro d v; simp
  | cons u us ih =>
    intro d v
    rw [List.foldl_cons, ih, foldl_bump_apply]
    unfold countSucc
    simp only [List.map_cons, List.sum_cons]
    push_cast
    ring

/-- The initial in-degree of `v` counts, over all nodes, the occurrences of
`v` among forward neighbours: `intoCount` with an empty `result`. -/
theorem inDegInit_eq (g : DependencyGraph) (v : String) :
    inDegInit g v = (intoCount g [] v : Int) := by
  unfold inDegInit intoCount
  rw [foldl_inDeg_apply]
  have hfil : g.nodes.filter (fun u => decide (u ∉ ([] : List String))) = g.nodes := by
    simp
  rw [hfil]
  simp

/-- Behaviour of the inner decrement loop: the in-degrees drop by the
occurrence counts, and (for a duplicate-free neighbour list) exactly those
neighbours whose final in-degree is `0` are appended to the queue. -/
theorem processSuccs_spec :
    ∀ (ws : List String) (d : String → Int) (q : List String), ws.Nodup →
      (∀ v, (processSuccs ws d q).1 v =
        d v - ((ws.filter (fun w => decide (w = v))).length : Int)) ∧
      ∃ qs, (processSuccs ws d q).2 = q ++ qs ∧ qs.Nodup ∧
        (∀ x, x ∈ qs ↔ x ∈ ws ∧ (processSuccs ws d q).1 x = 0) := by
  intro ws
  induction ws with
  | nil =>
    intro d q _
    refine ⟨fun v => by simp [processSuccs], [], by simp [processSuccs], by simp, ?_⟩
    intro x
    simp [processSuccs]
  | cons w ws' ih =>
    intro d q hnd
    have hw : w ∉ ws' := (List.nodup_cons.mp hnd).1
    have hnd' : ws'.Nodup := (List.nodup_cons.mp hnd).2
    set d' : String → Int := fun x => if x = w then d x - 1 else d x with hd'
    set q' : List String := if d' w = 0 then q ++ [w] else q with hq'
    have hunfold : processSuccs (w :: ws') d q = processSuccs ws' d' q' := by
      simp only [processSuccs]
      simp [hd', hq']
    obtain ⟨ha, qs', hq's, hnds', hiff'⟩ := ih d' q' hnd'
    have hval : ∀ v, (processSuccs (w :: ws') d q).1 v =
        d v - (((w :: ws').filter (fun x => decide (x = v))).length : Int) := by
      intro v
      rw [hunfold, ha v]
      by_cases hwv : w = v
      · subst hwv
        have hd : d' w = d w - 1 := by simp [hd']
        have hf : ((w :: ws').filter (fun x => decide (x = w))) =
            w :: ws'.filter (fun x => decide (x = w)) := by
          simp [List.filter_cons]
        rw [hd, hf]
        simp only [List.length_cons]
        push_cast
        ring
      · have hd : d' v = d v := by
          simp only [hd']
          rw [if_neg (fun h => hwv h.symm)]
        have hf : ((w :: ws').filter (fun x => decide (x = v))) =
            ws'.filter (fun x => decide (x = v)) := by
          simp [List.filter_cons, hwv]
        rw [hd, hf]
    have hwfinal : (processSuccs (w :: ws') d q).1 w = d' w := by
      rw [hunfold, ha w]
      have : ws'.filter (fun x => decide (x = w)) = [] := by
        apply List.filter_eq_nil_iff.mpr
        intro a ha'
        simp only [decide_eq_true_eq]
        exact fun he => hw (he ▸ ha')
      rw [this]
      simp [hd']
    have htail : ∀ x ∈ ws', (processSuccs (w :: ws') d q).1 x =
        (processSuccs ws' d' q').1 x := by
      intro x _
      rw [hunfold]
    refine ⟨hval, ?_⟩
    by_cases hz : d' w = 0
    · refine ⟨w :: qs', ?_, ?_, ?_⟩
      · rw [hunfold, hq's, hq', if_pos hz]
        simp
      · refine List.nodup_cons.mpr ⟨?_, hnds'⟩
        intro hmem
        exact hw ((hiff' w).mp hmem).1
      · intro x
        constructor
        · intro hx
          rcases List.mem_cons.mp hx with rfl | hx'
          · exact ⟨List.mem_cons_self _ _, by rw [hwfinal]; exact hz⟩
          · obtain ⟨hxin, hxz⟩ := (hiff' x).mp hx'
            exact ⟨List.mem_cons_of_mem _ hxin, by rw [hunfold]; exact hxz⟩
        · rintro ⟨hxin, hxz⟩
          rcases List.mem_cons.mp hxin with rfl | hx'
          · exact List.mem_cons_self _ _
          · refine List.mem_cons_of_mem _ ((hiff' x).mpr ⟨hx', ?_⟩)
            rw [← hunfold]
            exact hxz
    · refine ⟨qs', ?_, hnds', ?_⟩
      · rw [hunfold, hq's, hq', if_neg hz]
      · intro x
        constructor
        · intro hx
          obtain ⟨hxin, hxz⟩ := (hiff' x).mp hx
          exact ⟨List.mem_cons_of_mem _ hxin, by rw [hunfold]; exact hxz⟩
        · rintro ⟨hxin, hxz⟩
          rcases List.mem_cons.mp hxin with rfl | hx'
          · exfalso
            rw [hwfinal] at hxz
            exact hz hxz
          · refine (hiff' x).mpr ⟨hx', ?_⟩
            rw [← hunfold]
            exact hxz

theorem sum_map_one {α : Type} (l : List α) :
    (l.map (fun _ => (1 : Nat))).sum = l.length := by
  induction l with
  | nil => simp
  | cons a rest ih => simp [ih]; omega

theorem succs_nodup {g : DependencyGraph} (hwf : GraphWF g) (u : String) :
    (succs g u).Nodup := by
  unfold succs
  apply List.Nodup.map_on
  · intro x hx y hy hxy
    have hx1 : x.1 = u := by simpa using (List.mem_filter.mp hx).2
    have hy1 : y.1 = u := by simpa using (List.mem_filter.mp hy).2
    exact Prod.ext (hx1.trans hy1.symm) hxy
  · exact List.Nodup.filter _ hwf.2.1

/-- Main invariant lemma for the Kahn loop: from a consistent state it
produces a duplicate-free list of nodes that respects the edge order, and
any node left out still has an unprocessed predecessor. -/
theorem kahnLoop_spec (g : DependencyGraph) (hwf : GraphWF g) :
    ∀ fuel queue deg result,
      (∀ v, deg v = (intoCount g result v : Int)) →
      result.Nodup → queue.Nodup →
      (∀ x ∈ queue, x ∉ result) →
      (∀ x ∈ result, x ∈ g.nodes) →
      (∀ x ∈ queue, x ∈ g.nodes) →
      (∀ v ∈ queue, intoCount g result v = 0) →
      (∀ v ∈ g.nodes, v ∉ result → v ∉ queue → 0 < intoCount g result v) →
      (∀ v ∈ result, ∀ u, EdgeP g u v →
        u ∈ result ∧ pindex result u < pindex result v) →
      ((g.nodes.filter (fun v => decide (v ∉ result))).length ≤ fuel) →
      (kahnLoop g fuel queue deg result).Nodup ∧
      (∀ x ∈ kahnLoop g fuel queue deg result, x ∈ g.nodes) ∧
      (∀ v ∈ kahnLoop g fuel queue deg result, ∀ u, EdgeP g u v →
        u ∈ kahnLoop g fuel queue deg result ∧
        pindex (kahnLoop g fuel queue deg result) u <
          pindex (kahnLoop g fuel queue deg result) v) ∧
      (∀ v ∈ g.nodes, v ∉ kahnLoop g fuel queue deg result →
        0 < intoCount g (kahnLoop g fuel queue deg result) v) := by
  intro fuel
  induction fuel with
  | zero =>
    intro queue deg result _ hrn _ _ hrsub hqsub hq0 hunseen hord hfuel
    have hres : kahnLoop g 0 queue deg result = result := by simp [kahnLoop]
    rw [hres]
    refine ⟨hrn, hrsub, hord, ?_⟩
    intro v hv hvr
    exfalso
    have hmem : v ∈ g.nodes.filter (fun x => decide (x ∉ result)) :=
      List.mem_filter.mpr ⟨hv, by simpa using hvr⟩
    have := List.length_pos.mpr (List.ne_nil_of_mem hmem)
    omega
  | succ fuel ih =>
    intro queue deg result hdeg hrn hqn hdisj hrsub hqsub hq0 hunseen hord hfuel
    cases queue with
    | nil =>
      have hres : kahnLoop g (fuel + 1) [] deg result = result := by
        simp [kahnLoop]
      rw [hres]
      refine ⟨hrn, hrsub, hord, ?_⟩
      intro v hv hvr
      exact hunseen v hv hvr (List.not_mem_nil v)
    | cons node rest =>
      have hstep : kahnLoop g (fuel + 1) (node :: rest) deg result =
          kahnLoop g fuel (processSuccs (succs g node) deg rest).2
            (processSuccs (succs g node) deg rest).1 (result ++ [node]) := by
        simp only [kahnLoop]
      rw [hstep]
      set p := processSuccs (succs g node) deg rest with hp
      have hnode : node ∈ g.nodes := hqsub node (List.mem_cons_self _ _)
      have hnres : node ∉ result := hdisj node (List.mem_cons_self _ _)
      have hnic : intoCount g result node = 0 := hq0 node (List.mem_cons_self _ _)
      have hrestn : rest.Nodup := (List.nodup_cons.mp hqn).2
      have hnrest : node ∉ rest := (List.nodup_cons.mp hqn).1
      obtain ⟨hpd, qs, hpq, hqsnd, hqsiff⟩ :=
        processSuccs_spec (succs g node) deg rest (succs_nodup hwf node)
      have hic : ∀ v, intoCount g (result ++ [node]) v + countSucc g node v =
          intoCount g result v := by
        intro v
        unfold intoCount
        exact filterSum_insert (fun u => countSucc g u v) hwf.1 hnode hnres
      have hdeg' : ∀ v, p.1 v = (intoCount g (result ++ [node]) v : Int) := by
        intro v
        rw [hpd v, hdeg v]
        have := hic v
        have hcs : ((succs g node).filter (fun w => decide (w = v))).length =
            countSucc g node v := rfl
        rw [hcs]
        omega
      have hqs_edge : ∀ x ∈ qs, EdgeP g node x := by
        intro x hx
        exact mem_succs.mp ((hqsiff x).mp hx).1
      have hqs_ic : ∀ x ∈ qs, intoCount g (result ++ [node]) x = 0 := by
        intro x hx
        have h0 := ((hqsiff x).mp hx).2
        rw [hdeg' x] at h0
        exact_mod_cast h0
      have hqs_not_res : ∀ x ∈ qs, x ∉ result := by
        intro x hx hmem
        exact hnres (hord x hmem node (hqs_edge x hx)).1
      have hqs_ne_node : ∀ x ∈ qs, x ≠ node := by
        intro x hx he
        subst he
        have := intoCount_pos_of_edge hwf (hqs_edge x hx) hnres
        omega
      have hqs_not_rest : ∀ x ∈ qs, x ∉ rest := by
        intro x hx hmem
        have h0 : intoCount g result x = 0 := hq0 x (List.mem_cons_of_mem _ hmem)
        have := intoCount_pos_of_edge hwf (hqs_edge x hx) hnres
        omega
      have hrn' : (result ++ [node]).Nodup := by
        simp [List.nodup_append, hrn, hnres]
      have hqn' : p.2.Nodup := by
        rw [hpq]
        rw [List.nodup_append]
        refine ⟨hrestn, hqsnd, ?_⟩
        intro x hx hx'
        exact hqs_not_rest x hx' hx
      have hdisj' : ∀ x ∈ p.2, x ∉ result ++ [node] := by
        intro x hx
        rw [hpq] at hx
        rcases List.mem_append.mp hx with h | h
        · intro hmem
          rcases List.mem_append.mp hmem with h2 | h2
          · exact hdisj x (List.mem_cons_of_mem _ h) h2
          · simp only [List.mem_singleton] at h2
            exact hnrest (h2 ▸ h)
        · intro hmem
          rcases List.mem_append.mp hmem with h2 | h2
          · exact hqs_not_res x h h2
          · simp only [List.mem_singleton] at h2
            exact hqs_ne_node x h h2
      have hrsub' : ∀ x ∈ result ++ [node], x ∈ g.nodes := by
        intro x hx
        rcases List.mem_append.mp hx with h | h
        · exact hrsub x h
        · simp only [List.mem_singleton] at h
          exact h ▸ hnode
      have hqsub' : ∀ x ∈ p.2, x ∈ g.nodes := by
        intro x hx
        rw [hpq] at hx
        rcases List.mem_append.mp hx with h | h
        · exact hqsub x (List.mem_cons_of_mem _ h)
        · exact (edge_nodes hwf (hqs_edge x h)).2
      have hq0' : ∀ v ∈ p.2, intoCount g (result ++ [node]) v = 0 := by
        intro v hv
        rw [hpq] at hv
        rcases List.mem_append.mp hv with h | h
        · have hle : intoCount g (result ++ [node]) v ≤ intoCount g result v :=
            intoCount_le_of_subset g
              (fun x hx => List.mem_append.mpr (Or.inl hx)) v
          have h0 : intoCount g result v = 0 := hq0 v (List.mem_cons_of_mem _ h)
          omega
        · exact hqs_ic v h
      have hunseen' : ∀ v ∈ g.nodes, v ∉ result ++ [node] → v ∉ p.2 →
          0 < intoCount g (result ++ [node]) v := by
        intro v hv hvr hvq
        rw [hpq] at hvq
        have hvres : v ∉ result := fun h => hvr (List.mem_append.mpr (Or.inl h))
        have hvnode : v ≠ node := by
          intro he
          exact hvr (List.mem_append.mpr (Or.inr (by simp [he])))
        have hvrest : v ∉ rest := fun h => hvq (List.mem_append.mpr (Or.inl h))
        have hvqs : v ∉ qs := fun h => hvq (List.mem_append.mpr (Or.inr h))
        have hpos : 0 < intoCount g result v :=
          hunseen v hv hvres (by
            intro h
            rcases List.mem_cons.mp h with h1 | h1
            · exact hvnode h1
            · exact hvrest h1)
        have hicv := hic v
        by_cases hcs : countSucc g node v = 0
        · omega
        · have hvsucc : v ∈ succs g node :=
            mem_succs.mpr (countSucc_pos_iff.mp (Nat.pos_of_ne_zero hcs))
          by_contra hzero
          push_neg at hzero
          have h0 : intoCount g (result ++ [node]) v = 0 := by omega
          apply hvqs
          apply (hqsiff v).mpr
          refine ⟨hvsucc, ?_⟩
          rw [hdeg' v, h0]
          simp
      have hord' : ∀ v ∈ result ++ [node], ∀ u, EdgeP g u v →
          u ∈ result ++ [node] ∧
          pindex (result ++ [node]) u < pindex (result ++ [node]) v := by
        intro v hv u he
        rcases List.mem_append.mp hv with h | h
        · obtain ⟨hu, hlt⟩ := hord v h u he
          refine ⟨List.mem_append.mpr (Or.inl hu), ?_⟩
          rw [pindex_append_left hu, pindex_append_left h]
          exact hlt
        · simp only [List.mem_singleton] at h
          subst h
          have hu : u ∈ result := intoCount_zero_pred_in hwf hnic he
          refine ⟨List.mem_append.mpr (Or.inl hu), ?_⟩
          rw [pindex_append_left hu, pindex_append_self hnres]
          exact pindex_lt_length hu
      have hfuel' : (g.nodes.filter (fun v => decide (v ∉ result ++ [node]))).length
          ≤ fuel := by
        have h := filterSum_insert (fun _ => (1 : Nat)) hwf.1 hnode hnres
        rw [sum_map_one, sum_map_one] at h
        have h1 : ((fun _ => (1 : Nat)) node) = 1 := rfl
        rw [h1] at h
        omega
      exact ih p.2 p.1 (result ++ [node]) hdeg' hrn' hqn' hdisj' hrsub' hqsub'
        hq0' hunseen' hord' hfuel'

/-- In a finite set where every element has a predecessor inside the set,
some element lies on a cycle (pigeonhole on iterated predecessors). -/
theorem exists_cycle_of_pred {g : DependencyGraph} (R : List String)
    (hne : R ≠ []) (hpred : ∀ v ∈ R, ∃ u ∈ R, EdgeP g u v) :
    ∃ v, Relation.TransGen (EdgeP g) v v := by
  classical
  have hch : ∀ v, ∃ u, v ∈ R → (u ∈ R ∧ EdgeP g u v) := by
    intro v
    by_cases hv : v ∈ R
    · obtain ⟨u, hu, he⟩ := hpred v hv
      exact ⟨u, fun _ => ⟨hu, he⟩⟩
    · exact ⟨v, fun h => absurd h hv⟩
  choose f hf using hch
  obtain ⟨v0, hv0⟩ := List.exists_mem_of_ne_nil R hne
  have hiter : ∀ n, f^[n] v0 ∈ R := by
    intro n
    induction n with
    | zero => simpa using hv0
    | succ n ihn =>
      rw [Function.iterate_succ_apply']
      exact (hf _ ihn).1
  have hstep : ∀ n, EdgeP g (f^[n + 1] v0) (f^[n] v0) := by
    intro n
    rw [Function.iterate_succ_apply']
    exact (hf _ (hiter n)).2
  have htg : ∀ a m, Relation.TransGen (EdgeP g) (f^[a + m + 1] v0) (f^[a] v0) := by
    intro a m
    induction m with
    | zero => exact Relation.TransGen.single (hstep a)
    | succ m ihm =>
      have harith : a + (m + 1) + 1 = (a + m + 1) + 1 := by ring
      rw [harith]
      exact Relation.TransGen.head (hstep (a + m + 1)) ihm
  have hmap : ∀ n ∈ Finset.range (R.length + 1), f^[n] v0 ∈ R.toFinset :=
    fun n _ => List.mem_toFinset.mpr (hiter n)
  have hcard : R.toFinset.card < (Finset.range (R.length + 1)).card := by
    rw [Finset.card_range]
    have := R.toFinset_card_le
    omega
  obtain ⟨i, _, j, _, hij, heq⟩ :=
    Finset.exists_ne_map_eq_of_card_lt_of_maps_to hcard hmap
  rcases Nat.lt_or_ge i j with hlt | hge
  · have harith : j = i + (j - i - 1) + 1 := by omega
    have htg' := htg i (j - i - 1)
    rw [← harith] at htg'
    rw [heq] at htg'
    exact ⟨f^[j] v0, htg'⟩
  · have hlt' : j < i := by omega
    have harith : i = j + (i - j - 1) + 1 := by omega
    have htg' := htg j (i - j - 1)
    rw [← harith] at htg'
    rw [← heq] at htg'
    exact ⟨f^[i] v0, htg'⟩

/-- `topological_sort` on an acyclic well-formed graph: an ordering is
produced that is a permutation of the node set and puts every dependency
before every dependent. -/
theorem topological_sort_ok (g : DependencyGraph) (hwf : GraphWF g)
    (hacyc : Acyclic g) :
    ∃ l, topological_sort g = .ok l ∧ l.Perm g.nodes ∧
      ∀ u v, EdgeP g u v → pindex l u < pindex l v := by
  by_cases hempty : g.nodes.isEmpty
  · refine ⟨[], ?_, ?_, ?_⟩
    · unfold topological_sort
      rw [if_pos hempty]
    · rw [List.isEmpty_iff.mp hempty]
    · intro u v he
      have := (edge_nodes hwf he).1
      rw [List.isEmpty_iff.mp hempty] at this
      cases this
  · have hcycles : find_cycles g = [] := (find_cycles_empty_iff g hwf).mpr hacyc
    have hq0nd : (g.nodes.filter (fun n => inDegInit g n = 0)).Nodup :=
      List.Nodup.filter _ hwf.1
    have hloop := kahnLoop_spec g hwf g.nodes.length
      (g.nodes.filter (fun n => inDegInit g n = 0)) (inDegInit g) []
      (fun v => by rw [inDegInit_eq]) (by simp) hq0nd
      (by intro x _; exact List.not_mem_nil x)
      (by intro x hx; cases hx)
      (fun x hx => (List.mem_filter.mp hx).1)
      (by
        intro v hv
        have := (List.mem_filter.mp hv).2
        have hz : inDegInit g v = 0 := by simpa using this
        rw [inDegInit_eq] at hz
        exact_mod_cast hz)
      (by
        intro v hv hv2 hvq
        have hne0 : ¬ inDegInit g v = 0 := by
          intro hz
          exact hvq (List.mem_filter.mpr ⟨hv, by simpa using hz⟩)
        rw [inDegInit_eq] at hne0
        have : intoCount g [] v ≠ 0 := fun h => hne0 (by exact_mod_cast h)
        omega)
      (by intro v hv; cases hv)
      (by
        have hfil : g.nodes.filter (fun v => decide (v ∉ ([] : List String))) =
            g.nodes := by simp
        rw [hfil])
    obtain ⟨hnd, hsub, hordf, hunseenf⟩ := hloop
    have hkr : kahnResult g = kahnLoop g g.nodes.length
        (g.nodes.filter (fun n => inDegInit g n = 0)) (inDegInit g) [] := rfl
    rw [← hkr] at hnd hsub hordf hunseenf
    have hall : ∀ v ∈ g.nodes, v ∈ kahnResult g := by
      by_contra hnall
      push_neg at hnall
      obtain ⟨w, hw1, hw2⟩ := hnall
      have hRne : g.nodes.filter (fun v => decide (v ∉ kahnResult g)) ≠ [] :=
        List.ne_nil_of_mem (List.mem_filter.mpr ⟨hw1, by simpa using hw2⟩)
      have hpred : ∀ v ∈ g.nodes.filter (fun v => decide (v ∉ kahnResult g)),
          ∃ u ∈ g.nodes.filter (fun v => decide (v ∉ kahnResult g)), EdgeP g u v := by
        intro v hv
        have hv1 : v ∈ g.nodes := (List.mem_filter.mp hv).1
        have hv2 : v ∉ kahnResult g := by simpa using (List.mem_filter.mp hv).2
        obtain ⟨u, hu1, hu2, hu3⟩ := intoCount_pos_elim (hunseenf v hv1 hv2)
        exact ⟨u, List.mem_filter.mpr ⟨hu1, by simpa using hu2⟩, hu3⟩
      obtain ⟨v, hv⟩ := exists_cycle_of_pred _ hRne hpred
      exact hacyc v hv
    have hperm : (kahnResult g).Perm g.nodes :=
      List.Subperm.antisymm (List.Nodup.subperm hnd hsub)
        (List.Nodup.subperm hwf.1 hall)
    have hlen : (kahnResult g).length = g.nodes.length := hperm.length_eq
    refine ⟨kahnResult g, ?_, hperm, ?_⟩
    · unfold topological_sort
      rw [if_neg hempty, if_pos (by rw [hcycles]; rfl), if_pos hlen]
    · intro u v he
      have hv : v ∈ kahnResult g := hall v (edge_nodes hwf he).2
      exact (hordf v hv u he).2

/-- `topological_sort` on a cyclic graph: fails with the detected cycles. -/
theorem topological_sort_cycles (g : DependencyGraph) (hwf : GraphWF g)
    (h : ¬ Acyclic g) :
    topological_sort g = .error (.cycleDetected (find_cycles g)) ∧
      find_cycles g ≠ [] := by
  have hne := find_cycles_nonempty g hwf h
  have hnodes : ¬ g.nodes.isEmpty = true := by
    unfold Acyclic at h
    push_neg at h
    obtain ⟨u, hu⟩ := h
    obtain ⟨y, he, _⟩ := Relation.TransGen.head'_iff.mp hu
    have hun := (edge_nodes hwf he).1
    intro hempty
    rw [List.isEmpty_iff.mp hempty] at hun
    cases hun
  refine ⟨?_, hne⟩
  unfold topological_sort
  rw [if_neg hnodes, if_neg (by simpa using hne)]

/-! ### The data model: `Attribute`, `Block`, `STKSimulation`

Python `float` literals (`0.05`, `1e-6`, `0.1`, `50.0`, …) are modelled as
the exact rationals they denote.  An evaluation context is a dict that may
hold `None` values, so its entries carry `Option Value`; `context.get(k)`
collapses an absent key and a stored `None` into `none`. -/

inductive AttributeType where
  | input
  | calculated
deriving DecidableEq, Repr

/-- Attribute metadata (opaque to the engine, passed to `calculate`). -/
abbrev Metadata := List (String × Value)

/-- An evaluation context (`context` dicts in the source). -/
abbrev Ctx := List (String × Option Value)

/-- A user calculation function.  It receives the dependency-value dict and
the metadata dict; a result of `none` models the function raising. -/
abbrev CalcLogic := Ctx → Metadata → Option Value

/-- `context.get(dep_id)`: `none` for an absent key or a stored `None`. -/
def ctxGet (ctx : Ctx) (key : String) : Option Value :=
  (alookup ctx key).join

structure Attribute where
  id : String
  name : String
  attribute_type : AttributeType
  value : Option Value := none
  dependencies : List String := []
  calculation_logic : Option CalcLogic := none
  metadata : Metadata := []

/-- The dependency-value dict built by `Attribute.calculate`:
`{dep_id: context.get(dep_id) for dep_id in self.dependencies}`.  (The
Python dict collapses duplicate dependency ids; the entries here carry the
same value for every occurrence, so lookups agree.) -/
def depValues (attr : Attribute) (ctx : Ctx) : Ctx :=
  attr.dependencies.map (fun d => (d, ctxGet ctx d))

/-- `Attribute.calculate`.  `Except.error ()` models an escaping exception
(missing calculation logic, or the user function raising — the source
re-raises in its `except` block).  On success the updated attribute
carries the assignment `self.value = result`. -/
def Attribute.calculate (attr : Attribute) (ctx : Ctx) :
    Except Unit (Option Value × Attribute) :=
  match attr.attribute_type with
  | .input => .ok (attr.value, attr)
  | .calculated =>
    match attr.calculation_logic with
    | none => .error ()
    | some f =>
      match f (depValues attr ctx) attr.metadata with
      | none => .error ()
      | some r => .ok (some r, { attr with value := some r })

structure Block where
  id : String
  name : String
  attributes : List (String × Attribute) := []
  metadata : Metadata := []

/-- `Block.add_attribute`: `self.attributes[attribute.id] = attribute`
(a plain dict assignment — replaces silently when the id exists). -/
def Block.add_attribute (b : Block) (a : Attribute) : Block :=
  { b with attributes := aset b.attributes a.id a }

/-- `Block.get_attribute`. -/
def Block.get_attribute (b : Block) (attribute_id : String) : Option Attribute :=
  alookup b.attributes attribute_id

/-- The simulation engine.  The LangGraph plumbing (`memory`, compiled
`workflow`, `status` enum, `execution_logs`) carries no model state that the
evaluation pipeline reads, so it is not represented. -/
structure STKSimulation where
  id : String
  blocks : List (String × Block) := []
  scenario_overrides : List (String × Value) := []
  dependency_graph : DependencyGraph := DependencyGraph.empty

/-- `STKSimulation._find_attribute_by_id`: first block (in insertion
order) whose attribute dict contains the id. -/
def findAttrIn : List (String × Block) → String → Option Attribute
  | [], _ => none
  | (_, b) :: rest, attr_id =>
    match alookup b.attributes attr_id with
    | some a => some a
    | none => findAttrIn rest attr_id

def STKSimulation.find_attribute_by_id (sim : STKSimulation)
    (attr_id : String) : Option Attribute :=
  findAttrIn sim.blocks attr_id

/-- In-place mutation of the attribute object `_find_attribute_by_id`
returns: the attribute entry in the first block containing the id is
updated, later blocks holding the same id are untouched. -/
def updAttrIn (f : Attribute → Attribute) :
    List (String × Block) → String → List (String × Block)
  | [], _ => []
  | (bid, b) :: rest, attr_id =>
    match alookup b.attributes attr_id with
    | some a =>
      (bid, { b with attributes := aset b.attributes attr_id (f a) }) :: rest
    | none => (bid, b) :: updAttrIn f rest attr_id

def STKSimulation.updAttr (sim : STKSimulation) (attr_id : String)
    (f : Attribute → Attribute) : STKSimulation :=
  { sim with blocks := updAttrIn f sim.blocks attr_id }

/-- `STKSimulation.add_block`: register the block, add every attribute id
as a graph node, then add an edge for each declared dependency of a
calculated attribute whose target id resolves (unknown ids are logged and
dropped). -/
def STKSimulation.add_block (sim : STKSimulation) (block : Block) :
    STKSimulation :=
  let sim1 : STKSimulation := { sim with blocks := aset sim.blocks block.id block }
  let g1 := block.attributes.foldl
    (fun g p => { g with nodes := sadd g.nodes p.2.id }) sim1.dependency_graph
  let g2 := block.attributes.foldl
    (fun g p =>
      if p.2.attribute_type = .calculated then
        p.2.dependencies.foldl
          (fun g dep_id =>
            if (sim1.find_attribute_by_id dep_id).isSome then
              g.add_dependency p.2.id dep_id
            else g) g
      else g) g1
  { sim1 with dependency_graph := g2 }

/-- `STKSimulation.set_scenario_override`. -/
def STKSimulation.set_scenario_override (sim : STKSimulation)
    (attribute_id : String) (value : Value) : STKSimulation :=
  { sim with scenario_overrides := aset sim.scenario_overrides attribute_id value }

/-! ### The LangGraph workflow

LangGraph merges each node's returned state into its channels and hands
every node a fresh state dict; in particular `workflow.invoke` does not
write key reassignments back into the caller's `initial_state` dict.  The
workflow is therefore embedded as functional state passing over the pair
(engine, state) — the engine component carries the attribute mutations the
node closures perform through `self`. -/

/-- The LangGraph `SimulationState` (the purely informational
`blocks`/`dependency_graph` summaries and the wall-clock
`validation_timestamp` metric are not represented; the
`scenario_overrides` entry always aliases `self.scenario_overrides` —
`run_simulation` seeds it with that very object — so `initialize` reads the
overrides through the engine). -/
structure SimState where
  simulation_id : String
  execution_order : List String
  calculated_values : List (String × Option Value)
  cycles_detected : List (List String)
  status : String
  error_message : Option String
  metrics : List (String × Nat)

/-- One scenario override: assign when the id resolves, skip otherwise
(`initialize_simulation`'s loop body — note: no kind check). -/
def applyOverride (sim : STKSimulation) (p : String × Value) : STKSimulation :=
  match sim.find_attribute_by_id p.1 with
  | some _ => sim.updAttr p.1 (fun a => { a with value := some p.2 })
  | none => sim

/-- The `initialize` node (`initialize_simulation`): apply every scenario
override in insertion order. -/
def initNode : STKSimulation × SimState → STKSimulation × SimState
  | (sim, st) =>
    (sim.scenario_overrides.foldl applyOverride sim,
     { st with status := "initialized" })

/-- The `detect_cycles` node. -/
def detectNode : STKSimulation × SimState → STKSimulation × SimState
  | (sim, st) =>
    let cycles := find_cycles sim.dependency_graph
    (sim, { st with
      cycles_detected := cycles
      status := if cycles.isEmpty then "cycles_clear" else "cycles_detected" })

/-! ### The iterative cycle solver (`_resolve_cycle_iteratively`) -/

/-- `attr.value is not None` collection shared by the harvest mode of
`calculate_attributes` (`calculated_values[attr.id] = attr.value`) and the
context builders of the solver (`context[other_attr.id] = other_attr.value`):
both loops walk blocks and attributes in insertion order and keep the
non-null values. -/
def collectValues (sim : STKSimulation) : List (String × Option Value) :=
  sim.blocks.foldl
    (fun cv p =>
      p.2.attributes.foldl
        (fun cv q =>
          match q.2.value with
          | some v => aset cv q.2.id (some v)
          | none => cv) cv) []

/-- All attribute objects in block/attribute insertion order. -/
def allAttrs (sim : STKSimulation) : List Attribute :=
  sim.blocks.foldl (fun acc p => acc ++ p.2.attributes.map (fun q => q.2)) []

/-- The temporary graph of `_calculate_non_cyclic_dependencies`: the same
node set, and every forward edge except those internal to the cycle. -/
def tempGraphFor (g : DependencyGraph) (cycle : List String) : DependencyGraph :=
  g.nodes.foldl
    (fun tg node =>
      (succs g node).foldl
        (fun tg dependent =>
          if node ∈ cycle ∧ dependent ∈ cycle then tg
          else tg.add_dependency dependent node) tg)
    { nodes := g.nodes, edges := [], redges := [] }

/-- Loop body of `_calculate_non_cyclic_dependencies`: process one id of
the reduced topological order (skipping cycle members). -/
def preCycleStep (cycle : List String) (acc : STKSimulation × Ctx)
    (attr_id : String) : STKSimulation × Ctx :=
  if attr_id ∈ cycle then acc
  else
    match acc.1.find_attribute_by_id attr_id with
    | none => acc
    | some attr =>
      match attr.attribute_type with
      | .input => (acc.1, aset acc.2 attr_id attr.value)
      | .calculated =>
        match attr.calculation_logic with
        | none => acc
        | some _ =>
          if attr.dependencies.all
              (fun dep => decide (dep ∉ cycle) || (alookup acc.2 dep).isSome) then
            match attr.calculate acc.2 with
            | .ok (result, attr') =>
              (acc.1.updAttr attr_id (fun _ => attr'), aset acc.2 attr_id result)
            | .error _ => acc
          else acc

/-- `_calculate_non_cyclic_dependencies` (step 1 of the solver).  A failing
topological sort of the reduced graph is caught and skipped. -/
def calcNonCyclicDeps (sim : STKSimulation) (cycle : List String) :
    STKSimulation :=
  match topological_sort (tempGraphFor sim.dependency_graph cycle) with
  | .error _ => sim
  | .ok order => (order.foldl (preCycleStep cycle) (sim, [])).1

/-- The seed constants of step 2. -/
def seedValue (attr_id : String) : Value :=
  if pyInLower "selling_price" attr_id then 50
  else if pyInLower "market_demand" attr_id then 1000
  else 100

/-- One attribute of the seeding loop. -/
def seedStep (s : STKSimulation) (attr_id : String) : STKSimulation :=
  match s.find_attribute_by_id attr_id with
  | some attr =>
    if attr.value.isNone then
      s.updAttr attr_id (fun a => { a with value := some (seedValue attr_id) })
    else s
  | none => s

/-- Step 2 of the solver: seed every cycle attribute whose value is null. -/
def seedCycle (sim : STKSimulation) (cycle : List String) : STKSimulation :=
  cycle.foldl seedStep sim

/-- `value_history[attr_id].append(new_value)` (creating the list first). -/
def histAppend (hist : List (String × List Value)) (id : String) (v : Value) :
    List (String × List Value) :=
  match alookup hist id with
  | some l => aset hist id (l ++ [v])
  | none => aset hist id [v]

/-- One attribute of one solver iteration: recompute from the full current
context, record history, update the convergence flag (threshold `0.05`
relative to `max(|prev|, 1e-6)`), assign the new value.  A raising user
function clears the convergence flag and changes nothing else. -/
def iterAttrStep (acc : STKSimulation × List (String × List Value) × Bool)
    (attr_id : String) : STKSimulation × List (String × List Value) × Bool :=
  match acc.1.find_attribute_by_id attr_id with
  | none => acc
  | some attr =>
    match attr.calculation_logic with
    | none => acc
    | some f =>
      match f (collectValues acc.1) attr.metadata with
      | none => (acc.1, acc.2.1, false)
      | some new_value =>
        let hist' := histAppend acc.2.1 attr_id new_value
        let conv' :=
          match attr.value with
          | some pv =>
            if |new_value - pv| / max |pv| (1 / 1000000) > 1 / 20 then false
            else acc.2.2
          | none => acc.2.2
        (acc.1.updAttr attr_id (fun a => { a with value := some new_value }),
         hist', conv')

/-- One full solver iteration over the cycle list, starting from
`converged = True`. -/
def iterOnce (cycle : List String) (sim : STKSimulation)
    (hist : List (String × List Value)) :
    STKSimulation × List (String × List Value) × Bool :=
  cycle.foldl iterAttrStep (sim, hist, true)

/-- The per-attribute test of `_detect_oscillation`: at least four history
entries whose last four alternate within `0.1`
(`recent[0]` is `h[-4]`, …, `recent[3]` is `h[-1]`). -/
def oscEntry (l : List Value) : Bool :=
  if 4 ≤ l.length then
    match l.drop (l.length - 4) with
    | [r0, r1, r2, r3] =>
      decide (|r0 - r2| < 1 / 10) && decide (|r1 - r3| < 1 / 10)
    | _ => false
  else false

/-- `_detect_oscillation`. -/
def detectOscillation (value_history : List (String × List Value))
    (iteration : Nat) : Bool :=
  if iteration < 4 then false
  else value_history.any (fun p => oscEntry p.2)

/-- Python `round(x, 2)` (round half to even), on exact rationals. -/
def pyRound2 (x : Value) : Value :=
  let y := x * 100
  let n : Int := ⌊y⌋
  let r : Int :=
    if y - n > 1 / 2 then n + 1
    else if y - n < 1 / 2 then n
    else if n % 2 = 0 then n else n + 1
  (r : Value) / 100

/-- `recent_values`: the last four history entries when there are at least
four, the whole history otherwise. -/
def last4 (l : List Value) : List Value :=
  if 4 ≤ l.length then l.drop (l.length - 4) else l

/-- The stabilised value: `round(sum(recent_values) / len(recent_values), 2)`. -/
def stabMean (l : List Value) : Value :=
  pyRound2 ((last4 l).sum / ((last4 l).length : Value))

/-- One attribute of the stabilisation loop. -/
def stabStep (value_history : List (String × List Value))
    (s : STKSimulation) (attr_id : String) : STKSimulation :=
  match alookup value_history attr_id with
  | some l =>
    if 2 ≤ l.length then
      match s.find_attribute_by_id attr_id with
      | some _ =>
        s.updAttr attr_id (fun a => { a with value := some (stabMean l) })
      | none => s
    else s
  | none => s

/-- `_stabilize_oscillating_values`: every cycle attribute present in the
history with at least two entries is set to the rounded mean of its last
(up to) four history entries. -/
def stabilizeValues (sim : STKSimulation) (cycle : List String)
    (value_history : List (String × List Value)) : STKSimulation :=
  cycle.foldl (stabStep value_history) sim

/-- Step 3 of the solver: `for iteration in range(10)`, stopping on
convergence, or on oscillation from iteration index 3 on (the detector
itself requires an index of at least 4), else accepting the last values. -/
def iterLoop (cycle : List String) :
    Nat → Nat → STKSimulation → List (String × List Value) →
      STKSimulation × List (String × List Value)
  | 0, _, sim, hist => (sim, hist)
  | fuel + 1, iteration, sim, hist =>
    let r := iterOnce cycle sim hist
    if r.2.2 then (r.1, r.2.1)
    else if 3 ≤ iteration ∧ detectOscillation r.2.1 iteration then
      (stabilizeValues r.1 cycle r.2.1, r.2.1)
    else iterLoop cycle fuel (iteration + 1) r.1 r.2.1

/-- One attribute of `_calculate_post_cycle_dependencies`: recompute through
`Attribute.calculate` with the accumulated context; failures are logged and
skipped. -/
def postCycleStep (acc : STKSimulation × Ctx) (attr : Attribute) :
    STKSimulation × Ctx :=
  match attr.calculation_logic with
  | none => acc
  | some _ =>
    match attr.calculate acc.2 with
    | .ok (result, _) =>
      (acc.1.updAttr attr.id (fun a => { a with value := result }),
       aset acc.2 attr.id result)
    | .error _ => acc

/-- `_calculate_post_cycle_dependencies` (step 4 of the solver). -/
def calcPostCycleDeps (sim : STKSimulation) (cycle : List String) :
    STKSimulation :=
  let deps := (allAttrs sim).filter (fun a =>
    decide (a.id ∉ cycle) && decide (a.attribute_type = .calculated) &&
      a.dependencies.any (fun d => decide (d ∈ cycle)))
  (deps.foldl postCycleStep (sim, collectValues sim)).1

/-- `_resolve_cycle_iteratively`. -/
def resolve_cycle_iteratively (sim : STKSimulation) (cycle : List String) :
    STKSimulation :=
  let s1 := calcNonCyclicDeps sim cycle
  let s2 := seedCycle s1 cycle
  let p := iterLoop cycle 10 0 s2 []
  calcPostCycleDeps p.1 cycle

/-- The `resolve_cycles` node: solve each detected cycle, then clear the
cycle list. -/
def resolveNode : STKSimulation × SimState → STKSimulation × SimState
  | (sim, st) =>
    (st.cycles_detected.foldl resolve_cycle_iteratively sim,
     { st with cycles_detected := [], status := "cycles_resolved" })

/-! ### The `calculate` and `validate` nodes, and `run_simulation` -/

/-- The kind-based default substituted when a calculation raises. -/
def kindDefault (attr_id : String) : Value :=
  if pyInLower "price" attr_id then 50
  else if pyInLower "demand" attr_id then 1000
  else if pyInLower "margin" attr_id then 20
  else 0

/-- The missing-dependency pass before a calculation: any declared
dependency whose context entry is absent or `None` is "missing"; an absent
key is then filled with the sentinel `0` (a present `None` entry is left). -/
def fillMissing (ctx : Ctx) (deps : List String) : Ctx :=
  deps.foldl
    (fun c d =>
      if (ctxGet c d).isNone then
        if (alookup c d).isNone then aset c d (some (0 : Value)) else c
      else c) ctx

/-- One id of the acyclic execution loop of `calculate_attributes`: publish
an input's value, or fill missing dependencies, calculate and store — with
the kind-based default substituted when the calculation raises.  Ids that
resolve to no attribute are skipped with a warning. -/
def calcStep (acc : STKSimulation × List (String × Option Value) × Ctx)
    (attr_id : String) : STKSimulation × List (String × Option Value) × Ctx :=
  match acc.1.find_attribute_by_id attr_id with
  | none => acc
  | some attr =>
    match attr.attribute_type with
    | .input =>
      (acc.1, aset acc.2.1 attr_id attr.value, aset acc.2.2 attr_id attr.value)
    | .calculated =>
      let ctx1 := fillMissing acc.2.2 attr.dependencies
      match attr.calculate ctx1 with
      | .ok (result, attr') =>
        (acc.1.updAttr attr_id (fun _ => attr'),
         aset acc.2.1 attr_id result, aset ctx1 attr_id result)
      | .error _ =>
        (acc.1, aset acc.2.1 attr_id (some (kindDefault attr_id)),
         aset ctx1 attr_id (some (kindDefault attr_id)))

/-- Rendering of the `ValueError` message for the state's `error_message`
(the claims never inspect the text). -/
def topoErrMsg : TopoErr → String
  | .cycleDetected _ => "Cannot perform topological sort: cycles detected"
  | .unexpectedCycle _ => "Topological sort failed - unexpected cycle"

/-- The `calculate` node (`calculate_attributes`): harvest mode after cycle
resolution, otherwise the topological execution loop; a failing topological
sort is caught into status `calculation_failed`. -/
def calculateNode : STKSimulation × SimState → STKSimulation × SimState
  | (sim, st) =>
    if st.status = "cycles_resolved" then
      (sim, { st with calculated_values := collectValues sim
                      status := "calculated" })
    else
      match topological_sort sim.dependency_graph with
      | .ok order =>
        let r := order.foldl calcStep (sim, [], [])
        (r.1, { st with execution_order := order
                        calculated_values := r.2.1
                        status := "calculated" })
      | .error e =>
        (sim, { st with status := "calculation_failed"
                        error_message := some (topoErrMsg e) })

/-- The `validate` node (`validate_results`): count null results; any null
value turns the run into `validation_failed`. -/
def validateNode : STKSimulation × SimState → STKSimulation × SimState
  | (sim, st) =>
    let failed := (st.calculated_values.filter (fun p => p.2.isNone)).map
      (fun p => p.1)
    let m := [("total_attributes", st.calculated_values.length),
              ("successful_calculations",
                (st.calculated_values.filter (fun p => p.2.isSome)).length)]
    if failed.isEmpty then
      (sim, { st with metrics := m, status := "completed" })
    else
      (sim, { st with metrics := m, status := "validation_failed"
                      error_message :=
                        some ("Failed calculations: " ++
                          String.intercalate ", " failed) })

/-- The compiled workflow: initialize → detect_cycles →
(resolve_cycles when cycles were recorded) → calculate → validate. -/
def invokeWorkflow (sim : STKSimulation) (st : SimState) :
    STKSimulation × SimState :=
  let p1 := initNode (sim, st)
  let p2 := detectNode p1
  let p3 := if p2.2.cycles_detected.isEmpty then p2 else resolveNode p2
  let p4 := calculateNode p3
  validateNode p4

/-- The result record of `run_simulation` (the wall-clock `execution_time`
field is not represented). -/
structure ResultRecord where
  simulation_id : String
  status : String
  calculated_values : List (String × Option Value)
  cycles_resolved : Nat
  metrics : List (String × Nat)
  error_message : Option String
deriving DecidableEq, Repr

/-- `STKSimulation.run_simulation`: build the initial state, invoke the
workflow, and compile the results — `cycles_resolved` reads
`len(initial_state.get("cycles_detected", []))` from the *local*
`initial_state` dict, whose `"cycles_detected"` entry is the empty list it
was created with (`invoke` does not write the nodes' reassignments of that
key back into the caller's dict).  The mutated engine is returned alongside
the record, since a run leaves the attribute values it wrote behind. -/
def run_simulation (sim : STKSimulation) : ResultRecord × STKSimulation :=
  let initial : SimState :=
    { simulation_id := sim.id
      execution_order := []
      calculated_values := []
      cycles_detected := []
      status := "starting"
      error_message := none
      metrics := [] }
  let p := invokeWorkflow sim initial
  ({ simulation_id := sim.id
     status := p.2.status
     calculated_values := p.2.calculated_values
     cycles_resolved := initial.cycles_detected.length
     metrics := p.2.metrics
     error_message := p.2.error_message }, p.1)

/-! ### Frame lemmas for the attribute store -/

theorem alookup_aset_self {α : Type} (l : List (String × α)) (k : String)
    (v : α) : alookup (aset l k v) k = some v := by
  induction l with
  | nil => simp [aset, alookup]
  | cons p rest ih =>
    by_cases hk : k = p.1
    · simp [aset, alookup, hk]
    · simp only [aset]
      rw [if_neg hk]
      simp only [alookup]
      rw [if_neg hk]
      exact ih

theorem alookup_aset_ne {α : Type} (l : List (String × α)) {k k' : String}
    (h : k' ≠ k) (v : α) : alookup (aset l k v) k' = alookup l k' := by
  induction l with
  | nil => simp [aset, alookup, h]
  | cons p rest ih =>
    by_cases hk : k = p.1
    · subst hk
      simp [aset, alookup, h]
    · simp only [aset]
      rw [if_neg hk]
      simp only [alookup]
      by_cases hk' : k' = p.1
      · rw [if_pos hk', if_pos hk']
      · rw [if_neg hk', if_neg hk']
        exact ih

theorem findAttrIn_updAttrIn_self (f : Attribute → Attribute) :
    ∀ (blocks : List (String × Block)) (id : String) (a : Attribute),
      findAttrIn blocks id = some a →
      findAttrIn (updAttrIn f blocks id) id = some (f a) := by
  intro blocks
  induction blocks with
  | nil => intro id a h; cases h
  | cons p rest ih =>
    intro id a h
    simp only [findAttrIn] at h
    cases hb : alookup p.2.attributes id with
    | some a' =>
      rw [hb] at h
      have ha : a' = a := by simpa using h
      subst ha
      simp only [updAttrIn, hb, findAttrIn]
      rw [alookup_aset_self]
    | none =>
      rw [hb] at h
      simp only [updAttrIn, hb, findAttrIn]
      exact ih id a (by simpa using h)

theorem findAttrIn_updAttrIn_ne (f : Attribute → Attribute) :
    ∀ (blocks : List (String × Block)) {id id' : String}, id' ≠ id →
      findAttrIn (updAttrIn f blocks id) id' = findAttrIn blocks id' := by
  intro blocks
  induction blocks with
  | nil => intro id id' _; simp [updAttrIn]
  | cons p rest ih =>
    intro id id' hne
    cases hb : alookup p.2.attributes id with
    | some a' =>
      simp only [updAttrIn, hb, findAttrIn]
      rw [alookup_aset_ne _ hne]
    | none =>
      simp only [updAttrIn, hb, findAttrIn]
      cases hb' : alookup p.2.attributes id' with
      | some a2 => rfl
      | none => exact ih hne

theorem findAttrIn_updAttrIn_none (f : Attribute → Attribute) :
    ∀ (blocks : List (String × Block)) {id : String},
      findAttrIn blocks id = none → updAttrIn f blocks id = blocks := by
  intro blocks
  induction blocks with
  | nil => intro id _; rfl
  | cons p rest ih =>
    intro id h
    simp only [findAttrIn] at h
    cases hb : alookup p.2.attributes id with
    | some a' => rw [hb] at h; cases h
    | none =>
      rw [hb] at h
      simp only [updAttrIn, hb]
      rw [ih h]

theorem find_updAttr_self {sim : STKSimulation} {id : String} {a : Attribute}
    (h : sim.find_attribute_by_id id = some a) (f : Attribute → Attribute) :
    (sim.updAttr id f).find_attribute_by_id id = some (f a) :=
  findAttrIn_updAttrIn_self f sim.blocks id a h

theorem find_updAttr_ne {sim : STKSimulation} {id id' : String}
    (h : id' ≠ id) (f : Attribute → Attribute) :
    (sim.updAttr id f).find_attribute_by_id id' = sim.find_attribute_by_id id' :=
  findAttrIn_updAttrIn_ne f sim.blocks h

theorem updAttr_none {sim : STKSimulation} {id : String}
    (h : sim.find_attribute_by_id id = none) (f : Attribute → Attribute) :
    sim.updAttr id f = sim := by
  unfold STKSimulation.updAttr
  rw [findAttrIn_updAttrIn_none f sim.blocks h]

theorem aset_of_none {α : Type} :
    ∀ (l : List (String × α)) (k : String) (v : α), alookup l k = none →
      aset l k v = l ++ [(k, v)] := by
  intro l
  induction l with
  | nil => intro k v _; rfl
  | cons p rest ih =>
    intro k v h
    simp only [alookup] at h
    by_cases hk : k = p.1
    · rw [if_pos hk] at h; cases h
    · rw [if_neg hk] at h
      cases p with
      | mk k' v' =>
        simp only [aset]
        rw [if_neg hk]
        simp [ih k v h]

theorem findAttrIn_append :
    ∀ (blocks l' : List (String × Block)) {id : String} {a : Attribute},
      findAttrIn blocks id = some a → findAttrIn (blocks ++ l') id = some a := by
  intro blocks
  induction blocks with
  | nil => intro l' id a h; cases h
  | cons p rest ih =>
    intro l' id a h
    simp only [findAttrIn] at h ⊢
    cases hb : alookup p.2.attributes id with
    | some a' =>
      rw [hb] at h
      simpa using h
    | none =>
      rw [hb] at h
      exact ih l' (by simpa using h)

/-! ### Claim C10: the dependency dict passed to a user calculation -/

/-- C10: whenever a calculated attribute's user calculation function is
invoked through `Attribute.calculate`, the dependency dict it receives has
exactly the attribute's declared dependencies as its key set — every
declared dependency id is a key, mapped to null when the evaluation context
holds no value for it, and no other keys are passed — and the invocation
passes precisely that dict (and that dict determines the outcome). -/
theorem claim_C10 (attr : Attribute) (f : CalcLogic) (ctx : Ctx)
    (h1 : attr.attribute_type = .calculated)
    (h2 : attr.calculation_logic = some f) :
    (depValues attr ctx).map Prod.fst = attr.dependencies ∧
    (∀ d ∈ attr.dependencies, (d, ctxGet ctx d) ∈ depValues attr ctx) ∧
    (∀ p ∈ depValues attr ctx, p.1 ∈ attr.dependencies ∧ p.2 = ctxGet ctx p.1) ∧
    (f (depValues attr ctx) attr.metadata = none →
      attr.calculate ctx = .error ()) ∧
    (∀ r, f (depValues attr ctx) attr.metadata = some r →
      attr.calculate ctx = .ok (some r, { attr with value := some r })) := by
  refine ⟨?_, ?_, ?_, ?_, ?_⟩
  · unfold depValues
    rw [List.map_map]
    exact List.map_id _
  · intro d hd
    exact List.mem_map.mpr ⟨d, hd, rfl⟩
  · intro p hp
    obtain ⟨d, hd, heq⟩ := List.mem_map.mp hp
    subst heq
    exact ⟨hd, rfl⟩
  · intro hnone
    simp [Attribute.calculate, h1, h2, hnone]
  · intro r hr
    simp [Attribute.calculate, h1, h2, hr]

def wAttrC10 : Attribute :=
  { id := "c10", name := "c10", attribute_type := .calculated,
    dependencies := ["d1", "d2"],
    calculation_logic := some (fun dv _ => ctxGet dv "d1") }

theorem claim_C10_witness :
    (depValues wAttrC10 [("d1", some 5)]).map Prod.fst = wAttrC10.dependencies ∧
    (∀ d ∈ wAttrC10.dependencies,
      (d, ctxGet [("d1", some 5)] d) ∈ depValues wAttrC10 [("d1", some 5)]) ∧
    (∀ p ∈ depValues wAttrC10 [("d1", some 5)],
      p.1 ∈ wAttrC10.dependencies ∧ p.2 = ctxGet [("d1", some 5)] p.1) ∧
    ((fun dv (_ : Metadata) => ctxGet dv "d1") (depValues wAttrC10 [("d1", some 5)])
        wAttrC10.metadata = none →
      wAttrC10.calculate [("d1", some 5)] = .error ()) ∧
    (∀ r, (fun dv (_ : Metadata) => ctxGet dv "d1")
        (depValues wAttrC10 [("d1", some 5)]) wAttrC10.metadata = some r →
      wAttrC10.calculate [("d1", some 5)] =
        .ok (some r, { wAttrC10 with value := some r })) :=
  claim_C10 wAttrC10 (fun dv _ => ctxGet dv "d1") [("d1", some 5)] rfl rfl

/-! ### Claim C6: duplicate attribute ids -/

def blkC6 : Block := { id := "b1", name := "b1" }

def attrX1 : Attribute :=
  { id := "x", name := "first", attribute_type := .input, value := some 1 }

def attrX2 : Attribute :=
  { id := "x", name := "second", attribute_type := .input, value := some 2 }

/-- C6 counterexample: registering a second attribute with an
already-registered id does NOT fail with a `DuplicateId` configuration
error — `add_attribute` is a plain dict assignment that silently replaces
the existing attribute.  Registering `attrX2` over `attrX1` (same id `"x"`)
succeeds and leaves only the second attribute in the block. -/
theorem claim_C6_counterexample :
    ((blkC6.add_attribute attrX1).add_attribute attrX2).attributes =
      [("x", attrX2)] ∧ attrX2.name ≠ attrX1.name := by
  exact ⟨rfl, by decide⟩

/-- C6 (amended): registering a second attribute with an id already
registered never fails: within one block `add_attribute` silently replaces
the existing attribute (leaving all other keys untouched), and across
blocks `add_block` registers the block unconditionally, after which lookups
resolve the duplicated id to the attribute of the earlier block (the later
one is shadowed). -/
theorem claim_C6_amended :
    (∀ (b : Block) (a1 a2 : Attribute), a2.id = a1.id →
      alookup ((b.add_attribute a1).add_attribute a2).attributes a1.id =
        some a2 ∧
      ∀ k, k ≠ a1.id →
        alookup ((b.add_attribute a1).add_attribute a2).attributes k =
          alookup b.attributes k) ∧
    (∀ (sim : STKSimulation) (b : Block) (id : String) (a : Attribute),
      alookup sim.blocks b.id = none →
      sim.find_attribute_by_id id = some a →
      (sim.add_block b).find_attribute_by_id id = some a) := by
  constructor
  · intro b a1 a2 hid
    constructor
    · show alookup (aset (aset b.attributes a1.id a1) a2.id a2) a1.id = some a2
      rw [hid, alookup_aset_self]
    · intro k hk
      show alookup (aset (aset b.attributes a1.id a1) a2.id a2) k =
        alookup b.attributes k
      rw [hid, alookup_aset_ne _ hk, alookup_aset_ne _ hk]
  · intro sim b id a hfresh hfind
    show findAttrIn (aset sim.blocks b.id b) id = some a
    rw [aset_of_none sim.blocks b.id b hfresh]
    exact findAttrIn_append sim.blocks _ hfind

def simC6w : STKSimulation :=
  ({ id := "s6" } : STKSimulation).add_block (blkC6.add_attribute attrX1)

def blkC6b : Block :=
  ({ id := "b2", name := "b2" } : Block).add_attribute attrX2

theorem claim_C6_amended_witness :
    alookup ((blkC6.add_attribute attrX1).add_attribute attrX2).attributes
      attrX1.id = some attrX2 ∧
    (simC6w.add_block blkC6b).find_attribute_by_id "x" = some attrX1 :=
  ⟨(claim_C6_amended.1 blkC6 attrX1 attrX2 rfl).1,
   claim_C6_amended.2 simC6w blkC6b "x" attrX1 rfl rfl⟩

/-! ### Claim C8: seeding the cycle -/

theorem seedStep_frame {s : STKSimulation} {c id : String} (h : id ≠ c) :
    (seedStep s c).find_attribute_by_id id = s.find_attribute_by_id id := by
  unfold seedStep
  cases hf : s.find_attribute_by_id c with
  | none => rfl
  | some a =>
    by_cases hv : a.value.isNone
    · simp only [hv, if_true]
      exact find_updAttr_ne h _
    · simp only [if_neg hv]

theorem seedCycle_spec :
    ∀ (cycle : List String) (sim : STKSimulation) (id : String)
      (attr : Attribute), sim.find_attribute_by_id id = some attr →
      ((id ∈ cycle → attr.value = none →
        (seedCycle sim cycle).find_attribute_by_id id =
          some { attr with value := some (seedValue id) }) ∧
      ((id ∉ cycle ∨ attr.value.isSome) →
        (seedCycle sim cycle).find_attribute_by_id id = some attr)) := by
  intro cycle
  induction cycle with
  | nil =>
    intro sim id attr hfind
    exact ⟨fun h => absurd h (List.not_mem_nil id), fun _ => hfind⟩
  | cons c rest ih =>
    intro sim id attr hfind
    have hfold : seedCycle sim (c :: rest) = seedCycle (seedStep sim c) rest := rfl
    by_cases hc : c = id
    · subst hc
      cases hval : attr.value with
      | none =>
        have hstep : seedStep sim c =
            sim.updAttr c (fun a => { a with value := some (seedValue c) }) := by
          unfold seedStep
          rw [hfind]
          simp [hval]
        have hfind' : (seedStep sim c).find_attribute_by_id c =
            some { attr with value := some (seedValue c) } := by
          rw [hstep]
          exact find_updAttr_self hfind _
        obtain ⟨_, ih2⟩ := ih (seedStep sim c) c _ hfind'
        refine ⟨fun _ _ => ?_, ?_⟩
        · rw [hfold]
          exact ih2 (Or.inr (by simp))
        · rintro (h | h)
          · exact absurd (List.mem_cons_self c rest) h
          · simp [hval] at h
      | some v =>
        have hstep : seedStep sim c = sim := by
          unfold seedStep
          rw [hfind]
          simp [hval]
        obtain ⟨_, ih2⟩ := ih (seedStep sim c) c attr (by rw [hstep]; exact hfind)
        refine ⟨fun _ hnone => ?_, fun _ => ?_⟩
        · simp [hval] at hnone
        · rw [hfold]
          exact ih2 (Or.inr (by simp [hval]))
    · have hne : id ≠ c := fun h => hc h.symm
      have hfind' : (seedStep sim c).find_attribute_by_id id = some attr := by
        rw [seedStep_frame hne]; exact hfind
      obtain ⟨ih1, ih2⟩ := ih (seedStep sim c) id attr hfind'
      refine ⟨fun hmem hnone => ?_, fun h => ?_⟩
      · rw [hfold]
        rcases List.mem_cons.mp hmem with h1 | h1
        · exact absurd h1 hne
        · exact ih1 h1 hnone
      · rw [hfold]
        rcases h with h | h
        · exact ih2 (Or.inl (fun hm => h (List.mem_cons_of_mem _ hm)))
        · exact ih2 (Or.inr h)

/-- C8: at the seeding step of iterative cycle resolution, every cycle
attribute whose current value is null is assigned its seed — `50.0` when
the id contains `"selling_price"` (case-insensitively), `1000` when it
contains `"market_demand"`, `100.0` otherwise — and every cycle attribute
whose value is already non-null is left unchanged. -/
theorem claim_C8 (sim : STKSimulation) (cycle : List String) (id : String)
    (attr : Attribute) (hmem : id ∈ cycle)
    (hfind : sim.find_attribute_by_id id = some attr) :
    (attr.value = none →
      (seedCycle sim cycle).find_attribute_by_id id =
        some { attr with value := some (seedValue id) }) ∧
    (∀ v, attr.value = some v →
      (seedCycle sim cycle).find_attribute_by_id id = some attr) ∧
    (pyInLower "selling_price" id = true → seedValue id = 50) ∧
    (pyInLower "selling_price" id = false → pyInLower "market_demand" id = true →
      seedValue id = 1000) ∧
    (pyInLower "selling_price" id = false → pyInLower "market_demand" id = false →
      seedValue id = 100) := by
  obtain ⟨h1, h2⟩ := seedCycle_spec cycle sim id attr hfind
  refine ⟨h1 hmem, fun v hv => h2 (Or.inr (by simp [hv])), ?_, ?_, ?_⟩
  · intro h
    simp [seedValue, h]
  · intro h1' h2'
    simp [seedValue, h1', h2']
  · intro h1' h2'
    simp [seedValue, h1', h2']

def simC8 : STKSimulation :=
  ({ id := "s8" } : STKSimulation).add_block
    ((({ id := "b8", name := "b8" } : Block).add_attribute
      { id := "selling_price_x", name := "sp", attribute_type := .calculated }).add_attribute
      { id := "other", name := "o", attribute_type := .input, value := some 7 })

theorem claim_C8_witness :
    ((seedCycle simC8 ["selling_price_x", "other"]).find_attribute_by_id
        "selling_price_x" =
      some { id := "selling_price_x", name := "sp",
             attribute_type := .calculated, value := some (seedValue "selling_price_x") }) ∧
    ((seedCycle simC8 ["selling_price_x", "other"]).find_attribute_by_id "other" =
      some { id := "other", name := "o", attribute_type := .input, value := some 7 }) ∧
    seedValue "selling_price_x" = 50 := by
  refine ⟨?_, ?_, ?_⟩
  · exact (claim_C8 simC8 ["selling_price_x", "other"] "selling_price_x"
      { id := "selling_price_x", name := "sp", attribute_type := .calculated }
      (by simp) rfl).1 rfl
  · exact (claim_C8 simC8 ["selling_price_x", "other"] "other"
      { id := "other", name := "o", attribute_type := .input, value := some 7 }
      (by simp) rfl).2.1 7 rfl
  · exact (claim_C8 simC8 ["selling_price_x", "other"] "selling_price_x"
      { id := "selling_price_x", name := "sp", attribute_type := .calculated }
      (by simp) rfl).2.2.1 (by decide)

/-! ### Claim C4: oscillation detection and stabilisation -/

theorem length_eq_four {α : Type} {l : List α} :
    l.length = 4 ↔ ∃ a b c d, l = [a, b, c, d] := by
  cases l with
  | nil => simp
  | cons a t =>
    simp only [List.length_cons, Nat.succ_inj, List.length_eq_three]
    constructor
    · rintro ⟨b, c, d, rfl⟩
      exact ⟨a, b, c, d, rfl⟩
    · rintro ⟨a', b, c, d, heq⟩
      obtain ⟨rfl, rfl⟩ : a = a' ∧ t = [b, c, d] := by
        simpa using heq
      exact ⟨b, c, d, rfl⟩

theorem oscEntry_iff (l : List Value) :
    oscEntry l = true ↔
      4 ≤ l.length ∧ ∃ r0 r1 r2 r3, l.drop (l.length - 4) = [r0, r1, r2, r3] ∧
        |r0 - r2| < 1 / 10 ∧ |r1 - r3| < 1 / 10 := by
  unfold oscEntry
  by_cases h4 : 4 ≤ l.length
  · rw [if_pos h4]
    have hlen : (l.drop (l.length - 4)).length = 4 := by
      rw [List.length_drop]
      omega
    obtain ⟨a, b, c, d, hd⟩ := length_eq_four.mp hlen
    rw [hd]
    constructor
    · intro hb
      simp only [Bool.and_eq_true, decide_eq_true_eq] at hb
      exact ⟨h4, a, b, c, d, rfl, hb.1, hb.2⟩
    · rintro ⟨-, a', b', c', d', heq, h1, h2⟩
      obtain ⟨rfl, rfl, rfl, rfl⟩ : a = a' ∧ b = b' ∧ c = c' ∧ d = d' := by
        simpa using heq
      simp only [Bool.and_eq_true, decide_eq_true_eq]
      exact ⟨h1, h2⟩
  · rw [if_neg h4]
    simp only [Bool.false_eq_true, false_iff]
    rintro ⟨h, -⟩
    exact h4 h

theorem detectOscillation_iff (hist : List (String × List Value)) (iter : Nat) :
    detectOscillation hist iter = true ↔
      4 ≤ iter ∧ ∃ p ∈ hist, 4 ≤ p.2.length ∧ ∃ r0 r1 r2 r3,
        p.2.drop (p.2.length - 4) = [r0, r1, r2, r3] ∧
        |r0 - r2| < 1 / 10 ∧ |r1 - r3| < 1 / 10 := by
  unfold detectOscillation
  by_cases h : iter < 4
  · rw [if_pos h]
    simp only [Bool.false_eq_true, false_iff]
    rintro ⟨h4, -⟩
    omega
  · rw [if_neg h]
    rw [List.any_eq_true]
    constructor
    · rintro ⟨p, hp, hpe⟩
      exact ⟨by omega, p, hp, (oscEntry_iff p.2).mp hpe⟩
    · rintro ⟨-, p, hp, hcond⟩
      exact ⟨p, hp, (oscEntry_iff p.2).mpr hcond⟩

theorem stabStep_frame (hist : List (String × List Value))
    {s : STKSimulation} {c id : String} (h : id ≠ c) :
    (stabStep hist s c).find_attribute_by_id id = s.find_attribute_by_id id := by
  unfold stabStep
  cases hh : alookup hist c with
  | none => rfl
  | some l =>
    dsimp only
    by_cases h2 : 2 ≤ l.length
    · rw [if_pos h2]
      cases hf : s.find_attribute_by_id c with
      | none => rfl
      | some a =>
        dsimp only
        exact find_updAttr_ne h _
    · rw [if_neg h2]

theorem stabilize_spec :
    ∀ (cycle : List String) (hist : List (String × List Value))
      (sim : STKSimulation) (id : String) (attr : Attribute),
      sim.find_attribute_by_id id = some attr →
      ((∀ l, id ∈ cycle → alookup hist id = some l → 2 ≤ l.length →
        (stabilizeValues sim cycle hist).find_attribute_by_id id =
          some { attr with value := some (stabMean l) }) ∧
      ((id ∉ cycle ∨ alookup hist id = none ∨
          (∃ l, alookup hist id = some l ∧ l.length < 2)) →
        (stabilizeValues sim cycle hist).find_attribute_by_id id = some attr)) := by
  intro cycle
  induction cycle with
  | nil =>
    intro hist sim id attr hfind
    exact ⟨fun l h => absurd h (List.not_mem_nil id), fun _ => hfind⟩
  | cons c rest ih =>
    intro hist sim id attr hfind
    have hfold : stabilizeValues sim (c :: rest) hist =
        stabilizeValues (stabStep hist sim c) rest hist := rfl
    by_cases hc : c = id
    · subst hc
      cases hh : alookup hist c with
      | none =>
        have hstep : stabStep hist sim c = sim := by
          simp [stabStep, hh]
        obtain ⟨_, ih2⟩ := ih hist (stabStep hist sim c) c attr
          (by rw [hstep]; exact hfind)
        refine ⟨fun l _ hlk => ?_, fun _ => ?_⟩
        · cases hlk
        · rw [hfold]
          exact ih2 (Or.inr (Or.inl hh))
      | some l =>
        by_cases h2 : 2 ≤ l.length
        · have hstep : stabStep hist sim c =
              sim.updAttr c (fun a => { a with value := some (stabMean l) }) := by
            simp [stabStep, hh, h2, hfind]
          have hfind' : (stabStep hist sim c).find_attribute_by_id c =
              some { attr with value := some (stabMean l) } := by
            rw [hstep]
            exact find_updAttr_self hfind _
          obtain ⟨ih1, ih2⟩ := ih hist (stabStep hist sim c) c _ hfind'
          refine ⟨fun l' _ hlk _ => ?_, ?_⟩
          · have hl : l' = l := by
              simpa using hlk.symm
            subst hl
            rw [hfold]
            by_cases hr : c ∈ rest
            · exact ih1 l' hr hh h2
            · exact ih2 (Or.inl hr)
          · rintro (h | h | ⟨l', hl', hlen⟩)
            · exact absurd (List.mem_cons_self c rest) h
            · simp at h
            · have : l' = l := by simpa using hl'.symm
              subst this
              omega
        · have hstep : stabStep hist sim c = sim := by
            simp [stabStep, hh, h2]
          obtain ⟨_, ih2⟩ := ih hist (stabStep hist sim c) c attr
            (by rw [hstep]; exact hfind)
          refine ⟨fun l' _ hlk h2' => ?_, fun _ => ?_⟩
          · have : l' = l := by simpa using hlk.symm
            subst this
            omega
          · rw [hfold]
            exact ih2 (Or.inr (Or.inr ⟨l, hh, by omega⟩))
    · have hne : id ≠ c := fun h => hc h.symm
      have hfind' : (stabStep hist sim c).find_attribute_by_id id = some attr := by
        rw [stabStep_frame hist hne]
        exact hfind
      obtain ⟨ih1, ih2⟩ := ih hist (stabStep hist sim c) id attr hfind'
      refine ⟨fun l hmem hlk h2 => ?_, fun h => ?_⟩
      · rw [hfold]
        rcases List.mem_cons.mp hmem with h1 | h1
        · exact absurd h1 hne
        · exact ih1 l h1 hlk h2
      · rw [hfold]
        rcases h with h | h
        · exact ih2 (Or.inl (fun hm => h (List.mem_cons_of_mem _ hm)))
        · exact ih2 (Or.inr h)

/-- C4 (amended): oscillation is detected exactly when the iteration index is
at least 4 and some attribute has at least four history entries whose last
four satisfy the two `< 0.1` alternation bounds; on detection the solver loop
stops, stabilising the cycle — but only the cycle attributes with at least two
history entries receive the rounded mean of their last up-to-four entries,
the others keep their current value (the literal claim, which stabilises
every cycle attribute, is refuted by `claim_C4_counterexample`). -/
theorem claim_C4_amended
    (hist : List (String × List Value)) (iter fuel : Nat)
    (cycle : List String) (sim : STKSimulation)
    (id : String) (attr : Attribute)
    (hfind : sim.find_attribute_by_id id = some attr) :
    (detectOscillation hist iter = true ↔
      4 ≤ iter ∧ ∃ p ∈ hist, 4 ≤ p.2.length ∧ ∃ r0 r1 r2 r3,
        p.2.drop (p.2.length - 4) = [r0, r1, r2, r3] ∧
        |r0 - r2| < 1 / 10 ∧ |r1 - r3| < 1 / 10) ∧
    (∀ l, id ∈ cycle → alookup hist id = some l → 2 ≤ l.length →
      (stabilizeValues sim cycle hist).find_attribute_by_id id =
        some { attr with value := some (stabMean l) }) ∧
    ((id ∉ cycle ∨ alookup hist id = none ∨
        ∃ l, alookup hist id = some l ∧ l.length < 2) →
      (stabilizeValues sim cycle hist).find_attribute_by_id id = some attr) ∧
    (∀ l, stabMean l = pyRound2 ((last4 l).sum / ((last4 l).length : Value))) ∧
    (∀ s h, (iterOnce cycle s h).2.2 = false → 3 ≤ iter →
      detectOscillation (iterOnce cycle s h).2.1 iter = true →
      iterLoop cycle (fuel + 1) iter s h =
        (stabilizeValues (iterOnce cycle s h).1 cycle (iterOnce cycle s h).2.1,
         (iterOnce cycle s h).2.1)) := by
  obtain ⟨h1, h2⟩ := stabilize_spec cycle hist sim id attr hfind
  refine ⟨detectOscillation_iff hist iter, h1, h2, fun l => rfl, ?_⟩
  intro s h hconv h3 hdet
  simp only [iterLoop]
  simp [hconv, h3, hdet]

def attrC4 : Attribute :=
  { id := "p", name := "p", attribute_type := .calculated, value := some 3 }

def attrC4q : Attribute :=
  { id := "q", name := "q", attribute_type := .calculated, value := some 5 }

def simC4 : STKSimulation :=
  ({ id := "s4" } : STKSimulation).add_block
    ((({ id := "b4", name := "b4" } : Block).add_attribute attrC4).add_attribute
      attrC4q)

def histC4 : List (String × List Value) := [("q", [1, 1, 1, 1]), ("p", [7])]

def cycleC4 : List String := ["p", "q"]

/-- C4 is refuted as literally stated: with oscillation declared, the cycle
attribute `"p"` has one recorded history entry `[7]`, so the claim sets it to
`round(mean([7]), 2) = 7`; the code skips attributes with fewer than two
entries and `"p"` keeps its current value `3`. -/
theorem claim_C4_counterexample :
    detectOscillation histC4 4 = true ∧
    "p" ∈ cycleC4 ∧
    alookup histC4 "p" = some [7] ∧
    (stabilizeValues simC4 cycleC4 histC4).find_attribute_by_id "p" =
      some attrC4 ∧
    attrC4.value = some 3 ∧
    stabMean [7] = 7 ∧
    (3 : Value) ≠ 7 := by
  refine ⟨by with_unfolding_all decide, by decide, rfl, ?_, rfl,
    by with_unfolding_all decide, by with_unfolding_all decide⟩
  exact (stabilize_spec cycleC4 histC4 simC4 "p" attrC4 rfl).2
    (Or.inr (Or.inr ⟨[7], rfl, by decide⟩))

theorem claim_C4_amended_witness :
    (detectOscillation histC4 4 = true ↔
      4 ≤ 4 ∧ ∃ p ∈ histC4, 4 ≤ p.2.length ∧ ∃ r0 r1 r2 r3,
        p.2.drop (p.2.length - 4) = [r0, r1, r2, r3] ∧
        |r0 - r2| < 1 / 10 ∧ |r1 - r3| < 1 / 10) ∧
    (∀ l, "q" ∈ cycleC4 → alookup histC4 "q" = some l → 2 ≤ l.length →
      (stabilizeValues simC4 cycleC4 histC4).find_attribute_by_id "q" =
        some { attrC4q with value := some (stabMean l) }) ∧
    (("q" ∉ cycleC4 ∨ alookup histC4 "q" = none ∨
        ∃ l, alookup histC4 "q" = some l ∧ l.length < 2) →
      (stabilizeValues simC4 cycleC4 histC4).find_attribute_by_id "q" =
        some attrC4q) ∧
    (∀ l, stabMean l = pyRound2 ((last4 l).sum / ((last4 l).length : Value))) ∧
    (∀ s h, (iterOnce cycleC4 s h).2.2 = false → 3 ≤ 4 →
      detectOscillation (iterOnce cycleC4 s h).2.1 4 = true →
      iterLoop cycleC4 (0 + 1) 4 s h =
        (stabilizeValues (iterOnce cycleC4 s h).1 cycleC4
          (iterOnce cycleC4 s h).2.1,
         (iterOnce cycleC4 s h).2.1)) :=
  claim_C4_amended histC4 4 0 cycleC4 simC4 "q" attrC4q rfl

/-! ### A concrete cyclic model

Two mutually dependent calculated attributes whose user functions are plain
case analyses; under the solver's seeds (`alpha = beta = 100`) the pair
oscillates, is stabilised from its history, and a second run — which starts
from the first run's mutated values and therefore skips the seeding — settles
on different values. -/

def fA : CalcLogic := fun dv _ =>
  match ctxGet dv "beta" with
  | some q => if q = 900 then some 50 else if q ≥ 1000 then some 10
      else if q ≥ 100 then some 20 else some 777
  | none => none

def fB : CalcLogic := fun dv _ =>
  match ctxGet dv "alpha" with
  | some q => if q = 50 then some 900 else if q ≤ 15 then some 600 else some 1200
  | none => none

def attrA : Attribute :=
  { id := "alpha", name := "alpha", attribute_type := .calculated,
    dependencies := ["beta"], calculation_logic := some fA }

def attrB : Attribute :=
  { id := "beta", name := "beta", attribute_type := .calculated,
    dependencies := ["alpha"], calculation_logic := some fB }

def blkC9 : Block :=
  (({ id := "blk", name := "blk" } : Block).add_attribute attrA).add_attribute
    attrB

def simC9 : STKSimulation := ({ id := "s" } : STKSimulation).add_block blkC9

/-! ### Claim C5: the reported cycles_resolved count -/

/-- C5 (amended): the `cycles_resolved` field of the record returned by
`run_simulation` is the length of the *local* initial state's
`cycles_detected` entry — the empty list — and is therefore `0` on every
run, regardless of how many cycles `find_cycles` detects; the resolver node
does clear the cycle list from the state.  The literal claim, which equates
the field with the detected-cycle count, is refuted by
`claim_C5_counterexample`. -/
theorem claim_C5_amended (sim : STKSimulation) (st : SimState) :
    (run_simulation sim).1.cycles_resolved = 0 ∧
    (resolveNode (sim, st)).2.cycles_detected = [] :=
  ⟨rfl, rfl⟩

/-- C5 is refuted as literally stated: on the cyclic model `simC9` the run
detects one cycle, yet the returned record reports `cycles_resolved = 0`. -/
theorem claim_C5_counterexample :
    (find_cycles simC9.dependency_graph).length = 1 ∧
    (run_simulation simC9).1.cycles_resolved = 0 ∧
    (run_simulation simC9).1.cycles_resolved ≠
      (find_cycles simC9.dependency_graph).length := by
  refine ⟨by decide, rfl, ?_⟩
  intro h
  rw [show (run_simulation simC9).1.cycles_resolved = 0 from rfl] at h
  rw [show (find_cycles simC9.dependency_graph).length = 1 from by decide] at h
  cases h

/-! ### Claim C7: kind-based defaults on calculation failure -/

/-- C7: in the acyclic calculate pass, a calculated attribute whose
calculation raises gets the kind-based default — `50` when the id contains
`"price"` case-insensitively, else `1000` for `"demand"`, else `20` for
`"margin"`, else `0` — stored in `calculated_values` and in the evaluation
context, the engine itself is untouched, the fold continues over the
remaining ids, and the node still finishes with status `"calculated"`. -/
theorem claim_C7 (acc : STKSimulation × List (String × Option Value) × Ctx)
    (attr_id : String) (attr : Attribute)
    (hfind : acc.1.find_attribute_by_id attr_id = some attr)
    (htype : attr.attribute_type = .calculated)
    (herr : attr.calculate (fillMissing acc.2.2 attr.dependencies) = .error ()) :
    calcStep acc attr_id =
      (acc.1,
       aset acc.2.1 attr_id (some (kindDefault attr_id)),
       aset (fillMissing acc.2.2 attr.dependencies) attr_id
         (some (kindDefault attr_id))) ∧
    (pyInLower "price" attr_id = true → kindDefault attr_id = 50) ∧
    (pyInLower "price" attr_id = false → pyInLower "demand" attr_id = true →
      kindDefault attr_id = 1000) ∧
    (pyInLower "price" attr_id = false → pyInLower "demand" attr_id = false →
      pyInLower "margin" attr_id = true → kindDefault attr_id = 20) ∧
    (pyInLower "price" attr_id = false → pyInLower "demand" attr_id = false →
      pyInLower "margin" attr_id = false → kindDefault attr_id = 0) ∧
    (∀ rest : List String,
      (attr_id :: rest).foldl calcStep acc =
        rest.foldl calcStep (calcStep acc attr_id)) ∧
    (∀ (sim : STKSimulation) (st : SimState) (order : List String),
      st.status ≠ "cycles_resolved" →
      topological_sort sim.dependency_graph = .ok order →
      (calculateNode (sim, st)).2.status = "calculated" ∧
      (calculateNode (sim, st)).2.calculated_values =
        (order.foldl calcStep (sim, [], [])).2.1) := by
  refine ⟨?_, ?_, ?_, ?_, ?_, fun rest => rfl, ?_⟩
  · unfold calcStep
    rw [hfind]
    dsimp only
    rw [htype]
    dsimp only
    rw [herr]
  · intro h; simp [kindDefault, h]
  · intro h1 h2; simp [kindDefault, h1, h2]
  · intro h1 h2 h3; simp [kindDefault, h1, h2, h3]
  · intro h1 h2 h3; simp [kindDefault, h1, h2, h3]
  · intro sim st order hst htopo
    simp only [calculateNode]
    rw [if_neg hst, htopo]
    exact ⟨rfl, rfl⟩

def attrC7 : Attribute :=
  { id := "unit_price", name := "up", attribute_type := .calculated,
    calculation_logic := some (fun _ _ => none) }

def simC7 : STKSimulation :=
  ({ id := "s7" } : STKSimulation).add_block
    (({ id := "b7", name := "b7" } : Block).add_attribute attrC7)

theorem claim_C7_witness :
    calcStep (simC7, [], []) "unit_price" =
      (simC7,
       aset [] "unit_price" (some (kindDefault "unit_price")),
       aset (fillMissing [] attrC7.dependencies) "unit_price"
         (some (kindDefault "unit_price"))) ∧
    (pyInLower "price" "unit_price" = true → kindDefault "unit_price" = 50) ∧
    (pyInLower "price" "unit_price" = false →
      pyInLower "demand" "unit_price" = true → kindDefault "unit_price" = 1000) ∧
    (pyInLower "price" "unit_price" = false →
      pyInLower "demand" "unit_price" = false →
      pyInLower "margin" "unit_price" = true → kindDefault "unit_price" = 20) ∧
    (pyInLower "price" "unit_price" = false →
      pyInLower "demand" "unit_price" = false →
      pyInLower "margin" "unit_price" = false → kindDefault "unit_price" = 0) ∧
    (∀ rest : List String,
      ("unit_price" :: rest).foldl calcStep (simC7, [], []) =
        rest.foldl calcStep (calcStep (simC7, [], []) "unit_price")) ∧
    (∀ (sim : STKSimulation) (st : SimState) (order : List String),
      st.status ≠ "cycles_resolved" →
      topological_sort sim.dependency_graph = .ok order →
      (calculateNode (sim, st)).2.status = "calculated" ∧
      (calculateNode (sim, st)).2.calculated_values =
        (order.foldl calcStep (sim, [], [])).2.1) :=
  claim_C7 (simC7, [], []) "unit_price" attrC7 rfl rfl rfl

/-! ### Claims C1 and C3: topological sort and cycle detection -/

/-- C1: on a well-formed acyclic graph, `topological_sort` returns an
ordering containing each node exactly once in which every forward edge
`u → v` places `u` before `v`; on a well-formed graph with a cycle it fails
with `CycleDetectedError` carrying the (nonempty) cycle list. -/
theorem claim_C1 (g : DependencyGraph) (hwf : GraphWF g) :
    (Acyclic g →
      ∃ l, topological_sort g = .ok l ∧ l.Perm g.nodes ∧
        (∀ n ∈ g.nodes, l.count n = 1) ∧
        ∀ u v, EdgeP g u v → pindex l u < pindex l v) ∧
    (¬ Acyclic g →
      topological_sort g = .error (.cycleDetected (find_cycles g)) ∧
        find_cycles g ≠ []) := by
  constructor
  · intro hacyc
    obtain ⟨l, h1, h2, h3⟩ := topological_sort_ok g hwf hacyc
    refine ⟨l, h1, h2, fun n hn => ?_, h3⟩
    rw [h2.count_eq]
    exact List.count_eq_one_of_mem hwf.1 hn
  · exact topological_sort_cycles g hwf

def gC1 : DependencyGraph := DependencyGraph.empty.add_dependency "b" "a"

theorem claim_C1_witness :
    GraphWF gC1 ∧
    ((Acyclic gC1 →
      ∃ l, topological_sort gC1 = .ok l ∧ l.Perm gC1.nodes ∧
        (∀ n ∈ gC1.nodes, l.count n = 1) ∧
        ∀ u v, EdgeP gC1 u v → pindex l u < pindex l v) ∧
    (¬ Acyclic gC1 →
      topological_sort gC1 = .error (.cycleDetected (find_cycles gC1)) ∧
        find_cycles gC1 ≠ [])) :=
  ⟨by decide, claim_C1 gC1 (by decide)⟩

/-- C3: on a well-formed graph, `find_cycles` returns a nonempty list
exactly when the graph is not a DAG, and every returned cycle is genuine —
at least two entries, consecutive entries joined by forward edges, first
entry equal to the last. -/
theorem claim_C3 (g : DependencyGraph) (hwf : GraphWF g) :
    (find_cycles g ≠ [] ↔ ¬ Acyclic g) ∧
    ∀ c ∈ find_cycles g, 2 ≤ c.length ∧ c.Chain' (EdgeP g) ∧
      c.head? = c.getLast? :=
  ⟨(find_cycles_empty_iff g hwf).not, fun c hc => find_cycles_sound g c hc⟩

def gC3 : DependencyGraph :=
  (DependencyGraph.empty.add_dependency "b" "a").add_dependency "a" "b"

theorem claim_C3_witness :
    GraphWF gC3 ∧
    ((find_cycles gC3 ≠ [] ↔ ¬ Acyclic gC3) ∧
    ∀ c ∈ find_cycles gC3, 2 ≤ c.length ∧ c.Chain' (EdgeP gC3) ∧
      c.head? = c.getLast?) :=
  ⟨by decide, claim_C3 gC3 (by decide)⟩

/-! ### Claim C2: scenario overrides

The engine component of every workflow stage commutes with replacing the
`scenario_overrides` field (`setOv`): only `initialize_simulation` reads the
overrides, so an override whose id resolves to no attribute cannot influence
the run's results. -/

def setOv (s : STKSimulation) (o : List (String × Value)) : STKSimulation :=
  { s with scenario_overrides := o }

theorem applyOverride_setOv (s : STKSimulation) (o : List (String × Value))
    (p : String × Value) :
    applyOverride (setOv s o) p = setOv (applyOverride s p) o := by
  unfold applyOverride
  dsimp only [STKSimulation.find_attribute_by_id, setOv]
  repeat' split
  all_goals rfl

theorem preCycleStep_setOv (s : STKSimulation) (o : List (String × Value))
    (a : Ctx) (cy : List String) (b : String) :
    preCycleStep cy (setOv s o, a) b =
      (setOv (preCycleStep cy (s, a) b).1 o, (preCycleStep cy (s, a) b).2) := by
  unfold preCycleStep
  dsimp only [STKSimulation.find_attribute_by_id, setOv]
  repeat' split
  all_goals rfl

theorem seedStep_setOv (s : STKSimulation) (o : List (String × Value))
    (b : String) :
    seedStep (setOv s o) b = setOv (seedStep s b) o := by
  unfold seedStep
  dsimp only [STKSimulation.find_attribute_by_id, setOv]
  repeat' split
  all_goals rfl

theorem iterAttrStep_setOv (s : STKSimulation) (o : List (String × Value))
    (a : List (String × List Value) × Bool) (b : String) :
    iterAttrStep (setOv s o, a) b =
      (setOv (iterAttrStep (s, a) b).1 o, (iterAttrStep (s, a) b).2) := by
  unfold iterAttrStep
  dsimp only [STKSimulation.find_attribute_by_id, setOv, collectValues]
  repeat' split
  all_goals rfl

theorem stabStep_setOv (s : STKSimulation) (o : List (String × Value))
    (h : List (String × List Value)) (b : String) :
    stabStep h (setOv s o) b = setOv (stabStep h s b) o := by
  unfold stabStep
  dsimp only [STKSimulation.find_attribute_by_id, setOv]
  repeat' split
  all_goals rfl

theorem calcStep_setOv (s : STKSimulation) (o : List (String × Value))
    (a : List (String × Option Value) × Ctx) (b : String) :
    calcStep (setOv s o, a) b =
      (setOv (calcStep (s, a) b).1 o, (calcStep (s, a) b).2) := by
  unfold calcStep
  dsimp only [STKSimulation.find_attribute_by_id, setOv]
  repeat' split
  all_goals rfl

theorem postCycleStep_setOv (s : STKSimulation) (o : List (String × Value))
    (a : Ctx) (b : Attribute) :
    postCycleStep (setOv s o, a) b =
      (setOv (postCycleStep (s, a) b).1 o, (postCycleStep (s, a) b).2) := by
  unfold postCycleStep
  dsimp only [setOv]
  repeat' split
  all_goals rfl

theorem foldl_setOv {β : Type} (step : STKSimulation → β → STKSimulation)
    (hstep : ∀ s o b, step (setOv s o) b = setOv (step s b) o)
    (l : List β) : ∀ (s : STKSimulation) (o : List (String × Value)),
    l.foldl step (setOv s o) = setOv (l.foldl step s) o := by
  induction l with
  | nil => intro s o; rfl
  | cons b rest ih =>
    intro s o
    simp only [List.foldl_cons, hstep]
    exact ih _ o

theorem foldl_setOv_pair {α β : Type}
    (step : STKSimulation × α → β → STKSimulation × α)
    (hstep : ∀ s a o b,
      step (setOv s o, a) b = (setOv (step (s, a) b).1 o, (step (s, a) b).2))
    (l : List β) : ∀ (s : STKSimulation) (a : α) (o : List (String × Value)),
    l.foldl step (setOv s o, a) =
      (setOv (l.foldl step (s, a)).1 o, (l.foldl step (s, a)).2) := by
  induction l with
  | nil => intro s a o; rfl
  | cons b rest ih =>
    intro s a o
    simp only [List.foldl_cons, hstep]
    exact ih (step (s, a) b).1 (step (s, a) b).2 o

theorem calcNonCyclicDeps_setOv (s : STKSimulation) (o : List (String × Value))
    (cy : List String) :
    calcNonCyclicDeps (setOv s o) cy = setOv (calcNonCyclicDeps s cy) o := by
  unfold calcNonCyclicDeps
  have hg : tempGraphFor (setOv s o).dependency_graph cy =
      tempGraphFor s.dependency_graph cy := rfl
  rw [hg]
  cases h : topological_sort (tempGraphFor s.dependency_graph cy) with
  | error e => rfl
  | ok order =>
    dsimp only
    rw [foldl_setOv_pair _ (fun s a o b => preCycleStep_setOv s o a cy b) order s [] o]

theorem seedCycle_setOv (s : STKSimulation) (o : List (String × Value))
    (cy : List String) :
    seedCycle (setOv s o) cy = setOv (seedCycle s cy) o :=
  foldl_setOv _ seedStep_setOv cy s o

theorem iterOnce_setOv (cy : List String) (s : STKSimulation)
    (o : List (String × Value)) (h : List (String × List Value)) :
    iterOnce cy (setOv s o) h =
      (setOv (iterOnce cy s h).1 o, (iterOnce cy s h).2) :=
  foldl_setOv_pair _ (fun s a o b => iterAttrStep_setOv s o a b) cy s (h, true) o

theorem stabilizeValues_setOv (s : STKSimulation) (o : List (String × Value))
    (cy : List String) (h : List (String × List Value)) :
    stabilizeValues (setOv s o) cy h = setOv (stabilizeValues s cy h) o :=
  foldl_setOv _ (fun s o b => stabStep_setOv s o h b) cy s o

theorem iterLoop_setOv (cy : List String) (o : List (String × Value)) :
    ∀ (fuel it : Nat) (s : STKSimulation) (h : List (String × List Value)),
    iterLoop cy fuel it (setOv s o) h =
      (setOv (iterLoop cy fuel it s h).1 o, (iterLoop cy fuel it s h).2) := by
  intro fuel
  induction fuel with
  | zero => intro it s h; rfl
  | succ n ih =>
    intro it s h
    simp only [iterLoop]
    rw [iterOnce_setOv]
    dsimp only
    by_cases h1 : (iterOnce cy s h).2.2 = true
    · rw [if_pos h1, if_pos h1]
    · rw [if_neg h1, if_neg h1]
      by_cases h2 : 3 ≤ it ∧ detectOscillation (iterOnce cy s h).2.1 it = true
      · rw [if_pos h2, if_pos h2, stabilizeValues_setOv]
      · rw [if_neg h2, if_neg h2]
        exact ih (it + 1) (iterOnce cy s h).1 (iterOnce cy s h).2.1

theorem calcPostCycleDeps_setOv (s : STKSimulation) (o : List (String × Value))
    (cy : List String) :
    calcPostCycleDeps (setOv s o) cy = setOv (calcPostCycleDeps s cy) o := by
  have h1 : allAttrs (setOv s o) = allAttrs s := rfl
  have h2 : collectValues (setOv s o) = collectValues s := rfl
  simp only [calcPostCycleDeps]
  rw [h1, h2]
  rw [foldl_setOv_pair _ (fun s a o b => postCycleStep_setOv s o a b) _ s
    (collectValues s) o]

theorem resolve_setOv (s : STKSimulation) (o : List (String × Value))
    (cy : List String) :
    resolve_cycle_iteratively (setOv s o) cy =
      setOv (resolve_cycle_iteratively s cy) o := by
  simp only [resolve_cycle_iteratively, calcNonCyclicDeps_setOv, seedCycle_setOv,
    iterLoop_setOv, calcPostCycleDeps_setOv]

theorem detectNode_setOv (s : STKSimulation) (o : List (String × Value))
    (st : SimState) :
    detectNode (setOv s o, st) =
      (setOv (detectNode (s, st)).1 o, (detectNode (s, st)).2) := rfl

theorem resolveNode_setOv (s : STKSimulation) (o : List (String × Value))
    (st : SimState) :
    resolveNode (setOv s o, st) =
      (setOv (resolveNode (s, st)).1 o, (resolveNode (s, st)).2) := by
  dsimp only [resolveNode]
  rw [foldl_setOv _ (fun s o c => resolve_setOv s o c) _ s o]

theorem calculateNode_setOv (s : STKSimulation) (o : List (String × Value))
    (st : SimState) :
    calculateNode (setOv s o, st) =
      (setOv (calculateNode (s, st)).1 o, (calculateNode (s, st)).2) := by
  dsimp only [calculateNode]
  by_cases hst : st.status = "cycles_resolved"
  · rw [if_pos hst, if_pos hst]
    rfl
  · rw [if_neg hst, if_neg hst]
    have hg : (setOv s o).dependency_graph = s.dependency_graph := rfl
    rw [hg]
    cases h : topological_sort s.dependency_graph with
    | error e => rfl
    | ok order =>
      dsimp only
      rw [foldl_setOv_pair _ (fun s a o b => calcStep_setOv s o a b) order s
        ([], []) o]

theorem validateNode_setOv (s : STKSimulation) (o : List (String × Value))
    (st : SimState) :
    validateNode (setOv s o, st) =
      (setOv (validateNode (s, st)).1 o, (validateNode (s, st)).2) := by
  simp only [validateNode]
  repeat' split
  all_goals rfl

def workflowTail (p : STKSimulation × SimState) : STKSimulation × SimState :=
  let p2 := detectNode p
  let p3 := if p2.2.cycles_detected.isEmpty then p2 else resolveNode p2
  validateNode (calculateNode p3)

theorem invokeWorkflow_eq_tail (s : STKSimulation) (st : SimState) :
    invokeWorkflow s st = workflowTail (initNode (s, st)) := rfl

theorem workflowTail_setOv (s : STKSimulation) (o : List (String × Value))
    (st : SimState) :
    workflowTail (setOv s o, st) =
      (setOv (workflowTail (s, st)).1 o, (workflowTail (s, st)).2) := by
  unfold workflowTail
  rw [detectNode_setOv]
  dsimp only
  by_cases hc : (detectNode (s, st)).2.cycles_detected.isEmpty = true
  · rw [if_pos hc, if_pos hc, calculateNode_setOv, validateNode_setOv]
  · rw [if_neg hc, if_neg hc, resolveNode_setOv, calculateNode_setOv,
      validateNode_setOv]

theorem applyOverride_find_none {s : STKSimulation} {b : String}
    (hb : s.find_attribute_by_id b = none) (p : String × Value) :
    (applyOverride s p).find_attribute_by_id b = none := by
  unfold applyOverride
  cases hf : s.find_attribute_by_id p.1 with
  | none => exact hb
  | some a =>
    dsimp only
    by_cases he : b = p.1
    · subst he
      rw [hb] at hf
      cases hf
    · rw [find_updAttr_ne he]
      exact hb

theorem applyAll_find_none {b : String} :
    ∀ (ovs : List (String × Value)) (s : STKSimulation),
    s.find_attribute_by_id b = none →
    (ovs.foldl applyOverride s).find_attribute_by_id b = none := by
  intro ovs
  induction ovs with
  | nil => intro s hb; exact hb
  | cons p rest ih =>
    intro s hb
    simp only [List.foldl_cons]
    exact ih _ (applyOverride_find_none hb p)

theorem applyOverride_unknown {s : STKSimulation} {b : String}
    (hb : s.find_attribute_by_id b = none) (v : Value) :
    applyOverride s (b, v) = s := by
  unfold applyOverride
  rw [hb]

theorem run_ignores_unknown (sim : STKSimulation) (b : String) (v : Value)
    (hb : sim.find_attribute_by_id b = none) :
    (run_simulation { sim with scenario_overrides :=
        sim.scenario_overrides ++ [(b, v)] }).1 = (run_simulation sim).1 := by
  have hsim' : ({ sim with scenario_overrides :=
      sim.scenario_overrides ++ [(b, v)] } : STKSimulation) =
      setOv sim (sim.scenario_overrides ++ [(b, v)]) := rfl
  have hinit : (sim.scenario_overrides ++ [(b, v)]).foldl applyOverride
      (setOv sim (sim.scenario_overrides ++ [(b, v)])) =
      setOv (sim.scenario_overrides.foldl applyOverride sim)
        (sim.scenario_overrides ++ [(b, v)]) := by
    rw [foldl_setOv _ applyOverride_setOv]
    rw [List.foldl_append]
    simp only [List.foldl_cons, List.foldl_nil]
    rw [applyOverride_unknown (applyAll_find_none sim.scenario_overrides sim hb) v]
  unfold run_simulation
  dsimp only
  rw [hsim']
  rw [invokeWorkflow_eq_tail, invokeWorkflow_eq_tail]
  have hin : initNode (setOv sim (sim.scenario_overrides ++ [(b, v)]),
      { simulation_id := sim.id,
        execution_order := [], calculated_values := [], cycles_detected := [],
        status := "starting", error_message := none, metrics := [] }) =
      (setOv (sim.scenario_overrides.foldl applyOverride sim)
          (sim.scenario_overrides ++ [(b, v)]),
       { simulation_id := sim.id, execution_order := [],
         calculated_values := [], cycles_detected := [], status := "initialized",
         error_message := none, metrics := [] }) := by
    dsimp only [initNode]
    rw [show (setOv sim (sim.scenario_overrides ++ [(b, v)])).scenario_overrides =
      sim.scenario_overrides ++ [(b, v)] from rfl]
    rw [hinit]
  rw [hin]
  rw [workflowTail_setOv]
  rfl

/-- C2 (amended): during Initialize each scenario override whose id resolves
is assigned to the found attribute regardless of its kind — the source has no
kind check (`claim_C2_counterexample` refutes the literal input-only claim) —
while all other attributes are untouched; an override whose id resolves to no
attribute is skipped outright, and appending such an unknown-id override to
the scenario leaves the run's entire result record, in particular its
`calculated_values`, unchanged. -/
theorem claim_C2_amended (sim : STKSimulation) (ovid : String) (v : Value) :
    (∀ st : SimState, (initNode (sim, st)).1 =
      sim.scenario_overrides.foldl applyOverride sim) ∧
    (∀ attr, sim.find_attribute_by_id ovid = some attr →
      (applyOverride sim (ovid, v)).find_attribute_by_id ovid =
        some { attr with value := some v }) ∧
    (∀ id, id ≠ ovid →
      (applyOverride sim (ovid, v)).find_attribute_by_id id =
        sim.find_attribute_by_id id) ∧
    (sim.find_attribute_by_id ovid = none → applyOverride sim (ovid, v) = sim) ∧
    (sim.find_attribute_by_id ovid = none →
      (run_simulation { sim with scenario_overrides :=
          sim.scenario_overrides ++ [(ovid, v)] }).1 =
        (run_simulation sim).1) := by
  refine ⟨fun st => rfl, ?_, ?_, fun h => applyOverride_unknown h v,
    fun h => run_ignores_unknown sim ovid v h⟩
  · intro attr hf
    unfold applyOverride
    rw [hf]
    dsimp only
    exact find_updAttr_self hf _
  · intro id hne
    unfold applyOverride
    cases hf : sim.find_attribute_by_id ovid with
    | none => rfl
    | some a =>
      dsimp only
      exact find_updAttr_ne hne _

def attrC2 : Attribute :=
  { id := "cv", name := "cv", attribute_type := .calculated, value := some 3 }

def simC2 : STKSimulation :=
  (({ id := "s2" } : STKSimulation).add_block
    (({ id := "b2", name := "b2" } : Block).add_attribute
      attrC2)).set_scenario_override "cv" 5

def stC2 : SimState :=
  { simulation_id := "s2", execution_order := [], calculated_values := [],
    cycles_detected := [], status := "starting", error_message := none,
    metrics := [] }

/-- C2 is refuted as literally stated: the override for `"cv"` targets a
CALCULATED attribute, yet Initialize assigns it the override value `5`
instead of logging and skipping it — the attribute's value field changes
from `3` to `5`. -/
theorem claim_C2_counterexample :
    attrC2.attribute_type = .calculated ∧
    simC2.scenario_overrides = [("cv", 5)] ∧
    simC2.find_attribute_by_id "cv" = some attrC2 ∧
    (initNode (simC2, stC2)).1.find_attribute_by_id "cv" =
      some { attrC2 with value := some (5 : Value) } ∧
    attrC2.value = some 3 ∧
    some (5 : Value) ≠ attrC2.value :=
  ⟨rfl, rfl, rfl, rfl, rfl, by with_unfolding_all decide⟩

/-! ### Claim C9: determinism of successive runs

`stripVals` erases every calculated attribute's value while keeping the
inputs; the calculate pass reads only the stripped engine (its context is
rebuilt from scratch), writes only calculated values, and re-applying the
same scenario overrides is absorbed — so on acyclic models a second run
reproduces the first run's `calculated_values`. -/

/-! C9 machinery: erasing calculated values -/

def stripAttr (a : Attribute) : Attribute :=
  if a.attribute_type = .calculated then { a with value := none } else a

def stripEntries (l : List (String × Attribute)) : List (String × Attribute) :=
  l.map (fun p => (p.1, stripAttr p.2))

def stripBlock (b : Block) : Block :=
  { b with attributes := stripEntries b.attributes }

def stripVals (s : STKSimulation) : STKSimulation :=
  { s with blocks := s.blocks.map (fun p => (p.1, stripBlock p.2)) }

theorem stripAttr_id (a : Attribute) : (stripAttr a).id = a.id := by
  unfold stripAttr; split <;> rfl

theorem stripAttr_name (a : Attribute) : (stripAttr a).name = a.name := by
  unfold stripAttr; split <;> rfl

theorem stripAttr_type (a : Attribute) :
    (stripAttr a).attribute_type = a.attribute_type := by
  unfold stripAttr; split <;> rfl

theorem stripAttr_deps (a : Attribute) :
    (stripAttr a).dependencies = a.dependencies := by
  unfold stripAttr; split <;> rfl

theorem stripAttr_logic (a : Attribute) :
    (stripAttr a).calculation_logic = a.calculation_logic := by
  unfold stripAttr; split <;> rfl

theorem stripAttr_meta (a : Attribute) :
    (stripAttr a).metadata = a.metadata := by
  unfold stripAttr; split <;> rfl

theorem stripAttr_input {a : Attribute} (h : a.attribute_type = .input) :
    stripAttr a = a := by
  unfold stripAttr
  rw [h]
  rfl

theorem stripAttr_value_input {a : Attribute} (h : a.attribute_type = .input) :
    (stripAttr a).value = a.value := by rw [stripAttr_input h]

/-- `calculate` reads no value field, so strip-equal calculated attributes
calculate identically. -/
theorem calculate_strip {a₁ a₂ : Attribute} (hs : stripAttr a₁ = stripAttr a₂)
    (ht : a₁.attribute_type = .calculated) (ctx : Ctx) :
    a₁.calculate ctx = a₂.calculate ctx := by
  obtain ⟨i₁, n₁, t₁, v₁, d₁, l₁, m₁⟩ := a₁
  obtain ⟨i₂, n₂, t₂, v₂, d₂, l₂, m₂⟩ := a₂
  dsimp at ht
  subst ht
  have ht₂ : t₂ = .calculated := by
    have := congrArg Attribute.attribute_type hs
    rw [stripAttr_type, stripAttr_type] at this
    exact this.symm
  subst ht₂
  simp [stripAttr] at hs
  obtain ⟨h1, h2, h3, h4, h5⟩ := hs
  subst h1; subst h2; subst h3; subst h4; subst h5
  rfl

theorem alookup_stripEntries (l : List (String × Attribute)) (k : String) :
    alookup (stripEntries l) k = Option.map stripAttr (alookup l k) := by
  induction l with
  | nil => rfl
  | cons p rest ih =>
    by_cases hk : k = p.1
    · simp [stripEntries, alookup, hk]
    · simp only [stripEntries, List.map_cons, alookup]
      rw [if_neg hk, if_neg hk]
      exact ih

theorem aset_stripEntries (l : List (String × Attribute)) (k : String)
    (a : Attribute) :
    stripEntries (aset l k a) = aset (stripEntries l) k (stripAttr a) := by
  induction l with
  | nil => rfl
  | cons p rest ih =>
    by_cases hk : k = p.1
    · simp [stripEntries, aset, hk]
    · simp only [stripEntries, List.map_cons, aset]
      rw [if_neg hk, if_neg hk]
      simp only [List.map_cons, List.cons.injEq, true_and]
      exact ih

theorem findAttrIn_strip (blocks : List (String × Block)) (k : String) :
    findAttrIn (blocks.map (fun p => (p.1, stripBlock p.2))) k =
      Option.map stripAttr (findAttrIn blocks k) := by
  induction blocks with
  | nil => rfl
  | cons p rest ih =>
    simp only [List.map_cons, findAttrIn]
    rw [show (stripBlock p.2).attributes = stripEntries p.2.attributes from rfl]
    rw [alookup_stripEntries]
    cases h : alookup p.2.attributes k with
    | none => exact ih
    | some a => rfl

theorem find_strip (s : STKSimulation) (k : String) :
    (stripVals s).find_attribute_by_id k =
      Option.map stripAttr (s.find_attribute_by_id k) :=
  findAttrIn_strip s.blocks k

theorem updAttrIn_strip (f f' : Attribute → Attribute)
    (hf : ∀ a, stripAttr (f a) = f' (stripAttr a)) (k : String) :
    ∀ blocks : List (String × Block),
    (updAttrIn f blocks k).map (fun p => (p.1, stripBlock p.2)) =
      updAttrIn f' (blocks.map (fun p => (p.1, stripBlock p.2))) k := by
  intro blocks
  induction blocks with
  | nil => rfl
  | cons p rest ih =>
    simp only [List.map_cons, updAttrIn]
    rw [show (stripBlock p.2).attributes = stripEntries p.2.attributes from rfl]
    rw [alookup_stripEntries]
    cases h : alookup p.2.attributes k with
    | none =>
      simp only [Option.map_none', List.map_cons]
      rw [ih]
    | some a =>
      simp only [Option.map_some', List.map_cons]
      congr 1
      dsimp only [stripBlock]
      rw [aset_stripEntries, hf]

theorem updAttr_strip (s : STKSimulation) (k : String)
    (f f' : Attribute → Attribute)
    (hf : ∀ a, stripAttr (f a) = f' (stripAttr a)) :
    stripVals (s.updAttr k f) = (stripVals s).updAttr k f' := by
  unfold STKSimulation.updAttr stripVals
  dsimp only
  rw [updAttrIn_strip f f' hf k s.blocks]


theorem aset_aset {α : Type} (l : List (String × α)) (k : String) (v w : α) :
    aset (aset l k v) k w = aset l k w := by
  induction l with
  | nil => simp [aset]
  | cons p rest ih =>
    by_cases hk : k = p.1
    · simp [aset, hk]
    · simp only [aset]
      rw [if_neg hk]
      simp only [aset]
      rw [if_neg hk, if_neg hk]
      simp only [List.cons.injEq, true_and]
      exact ih

theorem aset_lookup_self {α : Type} {l : List (String × α)} {k : String}
    {v : α} (h : alookup l k = some v) : aset l k v = l := by
  induction l with
  | nil => cases h
  | cons p rest ih =>
    by_cases hk : k = p.1
    · simp only [alookup] at h
      rw [if_pos hk] at h
      cases h
      simp [aset, hk]
    · simp only [alookup] at h
      rw [if_neg hk] at h
      simp only [aset]
      rw [if_neg hk]
      simp only [List.cons.injEq, true_and]
      exact ih h

theorem aset_comm_present {α : Type} {k₁ k₂ : String} (hne : k₁ ≠ k₂)
    (v₁ v₂ : α) :
    ∀ {l : List (String × α)} {x y : α}, alookup l k₁ = some x →
      alookup l k₂ = some y →
      aset (aset l k₁ v₁) k₂ v₂ = aset (aset l k₂ v₂) k₁ v₁ := by
  intro l
  induction l with
  | nil => intro x y h; cases h
  | cons p rest ih =>
    intro x y h₁ h₂
    by_cases hk₁ : k₁ = p.1
    · have hk₂ : ¬ k₂ = p.1 := fun h => hne (hk₁.trans h.symm)
      simp only [aset]
      rw [if_pos hk₁]
      simp only [aset]
      rw [if_neg hk₂, if_neg hk₂]
      simp only [aset]
      rw [if_pos hk₁]
    · by_cases hk₂ : k₂ = p.1
      · simp only [aset]
        rw [if_neg hk₁]
        simp only [aset]
        rw [if_pos hk₂, if_pos hk₂]
        simp only [aset]
        rw [if_neg hk₁]
      · simp only [alookup] at h₁ h₂
        rw [if_neg hk₁] at h₁
        rw [if_neg hk₂] at h₂
        simp only [aset]
        rw [if_neg hk₁]
        simp only [aset]
        rw [if_neg hk₂, if_neg hk₂]
        simp only [aset]
        rw [if_neg hk₁]
        simp only [List.cons.injEq, true_and]
        exact ih h₁ h₂

theorem updAttrIn_comp (f g : Attribute → Attribute) (k : String) :
    ∀ blocks : List (String × Block),
    updAttrIn g (updAttrIn f blocks k) k =
      updAttrIn (fun a => g (f a)) blocks k := by
  intro blocks
  induction blocks with
  | nil => rfl
  | cons p rest ih =>
    simp only [updAttrIn]
    cases h : alookup p.2.attributes k with
    | none =>
      simp only [updAttrIn, h]
      simp only [List.cons.injEq, true_and]
      exact ih
    | some a =>
      simp only [updAttrIn, alookup_aset_self]
      rw [aset_aset]

theorem updAttrIn_found_fix {k : String} (f : Attribute → Attribute) :
    ∀ {blocks : List (String × Block)} {a : Attribute},
    findAttrIn blocks k = some a → f a = a → updAttrIn f blocks k = blocks := by
  intro blocks
  induction blocks with
  | nil => intro a h; cases h
  | cons p rest ih =>
    intro a h hfa
    simp only [findAttrIn] at h
    simp only [updAttrIn]
    cases hl : alookup p.2.attributes k with
    | none =>
      rw [hl] at h
      simp only [List.cons.injEq, true_and]
      exact ih h hfa
    | some w =>
      rw [hl] at h
      cases h
      dsimp only
      rw [hfa, aset_lookup_self hl]

theorem updAttr_comp (s : STKSimulation) (k : String)
    (f g : Attribute → Attribute) :
    (s.updAttr k f).updAttr k g = s.updAttr k (fun a => g (f a)) := by
  unfold STKSimulation.updAttr
  dsimp only
  rw [updAttrIn_comp]

theorem updAttr_found_fix {s : STKSimulation} {k : String} {a : Attribute}
    (h : s.find_attribute_by_id k = some a) (f : Attribute → Attribute)
    (hfa : f a = a) : s.updAttr k f = s := by
  unfold STKSimulation.updAttr
  rw [updAttrIn_found_fix f h hfa]

theorem updAttrIn_comm (f g : Attribute → Attribute) {k₁ k₂ : String}
    (hne : k₁ ≠ k₂) :
    ∀ blocks : List (String × Block),
    updAttrIn g (updAttrIn f blocks k₁) k₂ =
      updAttrIn f (updAttrIn g blocks k₂) k₁ := by
  intro blocks
  induction blocks with
  | nil => rfl
  | cons p rest ih =>
    simp only [updAttrIn]
    cases h₁ : alookup p.2.attributes k₁ with
    | some a₁ =>
      cases h₂ : alookup p.2.attributes k₂ with
      | some a₂ =>
        dsimp only
        simp only [updAttrIn]
        rw [show alookup (aset p.2.attributes k₁ (f a₁)) k₂ =
          alookup p.2.attributes k₂ from alookup_aset_ne _ (Ne.symm hne) _]
        rw [show alookup (aset p.2.attributes k₂ (g a₂)) k₁ =
          alookup p.2.attributes k₁ from alookup_aset_ne _ hne _]
        rw [h₁, h₂]
        dsimp only
        rw [aset_comm_present hne (f a₁) (g a₂) h₁ h₂]
      | none =>
        dsimp only
        simp only [updAttrIn]
        rw [show alookup (aset p.2.attributes k₁ (f a₁)) k₂ =
          alookup p.2.attributes k₂ from alookup_aset_ne _ (Ne.symm hne) _]
        rw [h₁, h₂]
    | none =>
      cases h₂ : alookup p.2.attributes k₂ with
      | some a₂ =>
        dsimp only
        simp only [updAttrIn]
        rw [show alookup (aset p.2.attributes k₂ (g a₂)) k₁ =
          alookup p.2.attributes k₁ from alookup_aset_ne _ hne _]
        rw [h₁, h₂]
      | none =>
        dsimp only
        simp only [updAttrIn]
        rw [h₁, h₂]
        simp only [List.cons.injEq, true_and]
        exact ih


theorem updAttr_comm (s : STKSimulation) {k₁ k₂ : String} (hne : k₁ ≠ k₂)
    (f g : Attribute → Attribute) :
    (s.updAttr k₁ f).updAttr k₂ g = (s.updAttr k₂ g).updAttr k₁ f := by
  unfold STKSimulation.updAttr
  dsimp only
  rw [updAttrIn_comm f g hne]

theorem applyOverride_find_self {s : STKSimulation} {k : String} {a : Attribute}
    (h : s.find_attribute_by_id k = some a) (v : Value) :
    (applyOverride s (k, v)).find_attribute_by_id k =
      some { a with value := some v } := by
  unfold applyOverride
  rw [h]
  dsimp only
  exact find_updAttr_self h _

theorem applyOverride_find_ne {s : STKSimulation} {k id : String}
    (hne : id ≠ k) (v : Value) :
    (applyOverride s (k, v)).find_attribute_by_id id =
      s.find_attribute_by_id id := by
  unfold applyOverride
  cases h : s.find_attribute_by_id k with
  | none => rfl
  | some a =>
    dsimp only
    exact find_updAttr_ne hne _

theorem applyOverride_found {s : STKSimulation} {k : String} {a : Attribute}
    (h : s.find_attribute_by_id k = some a) (v : Value) :
    applyOverride s (k, v) =
      s.updAttr k (fun a => { a with value := some v }) := by
  unfold applyOverride
  rw [h]

theorem applyOverride_absorb_same (s : STKSimulation) (k : String)
    (v w : Value) :
    applyOverride (applyOverride s (k, v)) (k, w) = applyOverride s (k, w) := by
  cases h : s.find_attribute_by_id k with
  | none =>
    rw [applyOverride_unknown h v]
  | some a =>
    have h₂ : (applyOverride s (k, v)).find_attribute_by_id k =
        some { a with value := some v } := applyOverride_find_self h v
    rw [applyOverride_found h₂ w, applyOverride_found h v, updAttr_comp,
      applyOverride_found h w]

theorem applyOverride_comm (s : STKSimulation) {k₁ k₂ : String}
    (hne : k₁ ≠ k₂) (v₁ v₂ : Value) :
    applyOverride (applyOverride s (k₁, v₁)) (k₂, v₂) =
      applyOverride (applyOverride s (k₂, v₂)) (k₁, v₁) := by
  cases h₁ : s.find_attribute_by_id k₁ with
  | none =>
    rw [applyOverride_unknown h₁ v₁]
    cases h₂ : s.find_attribute_by_id k₂ with
    | none => rw [applyOverride_unknown h₂ v₂, applyOverride_unknown h₁ v₁]
    | some a₂ =>
      rw [applyOverride_unknown
        (show (applyOverride s (k₂, v₂)).find_attribute_by_id k₁ = none from by
          rw [applyOverride_find_ne hne v₂]; exact h₁) v₁]
  | some a₁ =>
    cases h₂ : s.find_attribute_by_id k₂ with
    | none =>
      rw [applyOverride_unknown
        (show (applyOverride s (k₁, v₁)).find_attribute_by_id k₂ = none from by
          rw [applyOverride_find_ne (Ne.symm hne) v₁]; exact h₂) v₂]
      rw [applyOverride_unknown h₂ v₂]
    | some a₂ =>
      have e₁ : applyOverride s (k₁, v₁) = s.updAttr k₁
          (fun a => { a with value := some v₁ }) := by
        unfold applyOverride; rw [h₁]
      have e₂ : applyOverride s (k₂, v₂) = s.updAttr k₂
          (fun a => { a with value := some v₂ }) := by
        unfold applyOverride; rw [h₂]
      have f₁ : (applyOverride s (k₁, v₁)).find_attribute_by_id k₂ = some a₂ := by
        rw [applyOverride_find_ne (Ne.symm hne) v₁]; exact h₂
      have f₂ : (applyOverride s (k₂, v₂)).find_attribute_by_id k₁ = some a₁ := by
        rw [applyOverride_find_ne hne v₂]; exact h₁
      rw [applyOverride_found f₁ v₂, applyOverride_found f₂ v₁, e₁, e₂,
        updAttr_comm s hne]

theorem applyAll_absorb {k : String} (v : Value) :
    ∀ (rest : List (String × Value)) (s : STKSimulation),
    k ∈ rest.map Prod.fst →
    rest.foldl applyOverride (applyOverride s (k, v)) =
      rest.foldl applyOverride s := by
  intro rest
  induction rest with
  | nil => intro s h; cases h
  | cons p rest' ih =>
    intro s hmem
    obtain ⟨pk, pv⟩ := p
    simp only [List.foldl_cons]
    by_cases hpk : pk = k
    · subst hpk
      rw [applyOverride_absorb_same]
    · have hk' : k ∈ rest'.map Prod.fst := by
        simp only [List.map_cons, List.mem_cons] at hmem
        rcases hmem with h | h
        · exact absurd h.symm hpk
        · exact h
      rw [applyOverride_comm s (Ne.symm hpk) v pv]
      exact ih (applyOverride s (pk, pv)) hk'

theorem applyAll_frame_find {k : String} :
    ∀ (l : List (String × Value)) (s : STKSimulation),
    k ∉ l.map Prod.fst →
    (l.foldl applyOverride s).find_attribute_by_id k =
      s.find_attribute_by_id k := by
  intro l
  induction l with
  | nil => intro s _; rfl
  | cons p rest ih =>
    intro s hmem
    simp only [List.map_cons, List.mem_cons, not_or] at hmem
    simp only [List.foldl_cons]
    rw [ih _ hmem.2]
    obtain ⟨pk, pv⟩ := p
    exact applyOverride_find_ne hmem.1 pv

theorem applyAll_twice :
    ∀ (ovs pre : List (String × Value)) (s : STKSimulation),
    ovs.foldl applyOverride ((pre ++ ovs).foldl applyOverride s) =
      (pre ++ ovs).foldl applyOverride s := by
  intro ovs
  induction ovs with
  | nil => intro pre s; rfl
  | cons o rest ih =>
    intro pre s
    obtain ⟨k, v⟩ := o
    have hassoc : pre ++ (k, v) :: rest = (pre ++ [(k, v)]) ++ rest := by simp
    have ihE : rest.foldl applyOverride
        ((pre ++ (k, v) :: rest).foldl applyOverride s) =
        (pre ++ (k, v) :: rest).foldl applyOverride s := by
      rw [hassoc]
      exact ih (pre ++ [(k, v)]) s
    simp only [List.foldl_cons]
    by_cases hk : k ∈ rest.map Prod.fst
    · rw [applyAll_absorb v rest _ hk]
      exact ihE
    · have hfind : ((pre ++ (k, v) :: rest).foldl applyOverride s).find_attribute_by_id k =
          (applyOverride (pre.foldl applyOverride s) (k, v)).find_attribute_by_id k := by
        rw [hassoc, List.foldl_append, List.foldl_append]
        simp only [List.foldl_cons, List.foldl_nil]
        exact applyAll_frame_find rest _ hk
      cases hPf : (pre.foldl applyOverride s).find_attribute_by_id k with
      | none =>
        have hnone : ((pre ++ (k, v) :: rest).foldl applyOverride s).find_attribute_by_id k = none := by
          rw [hfind, applyOverride_unknown hPf v]
          exact hPf
        rw [applyOverride_unknown hnone v]
        exact ihE
      | some a =>
        have hsome : ((pre ++ (k, v) :: rest).foldl applyOverride s).find_attribute_by_id k =
            some { a with value := some v } := by
          rw [hfind]
          exact applyOverride_find_self hPf v
        have habs : applyOverride ((pre ++ (k, v) :: rest).foldl applyOverride s) (k, v) =
            (pre ++ (k, v) :: rest).foldl applyOverride s := by
          rw [applyOverride_found hsome v]
          exact updAttr_found_fix hsome _ rfl
        rw [habs]
        exact ihE


theorem strip_set_value (w : Option Value) (a : Attribute) :
    stripAttr { a with value := w } =
      stripAttr { stripAttr a with value := w } := by
  obtain ⟨i, n, t, v, d, l, m⟩ := a
  by_cases ht : t = AttributeType.calculated <;> simp [stripAttr, ht]

theorem applyOverride_graph (s : STKSimulation) (p : String × Value) :
    (applyOverride s p).dependency_graph = s.dependency_graph := by
  unfold applyOverride
  repeat' split
  all_goals rfl

theorem applyOverride_ov (s : STKSimulation) (p : String × Value) :
    (applyOverride s p).scenario_overrides = s.scenario_overrides := by
  unfold applyOverride
  repeat' split
  all_goals rfl

theorem applyAll_graph :
    ∀ (l : List (String × Value)) (s : STKSimulation),
    (l.foldl applyOverride s).dependency_graph = s.dependency_graph := by
  intro l
  induction l with
  | nil => intro s; rfl
  | cons p rest ih =>
    intro s
    simp only [List.foldl_cons]
    rw [ih, applyOverride_graph]

theorem applyAll_ov :
    ∀ (l : List (String × Value)) (s : STKSimulation),
    (l.foldl applyOverride s).scenario_overrides = s.scenario_overrides := by
  intro l
  induction l with
  | nil => intro s; rfl
  | cons p rest ih =>
    intro s
    simp only [List.foldl_cons]
    rw [ih, applyOverride_ov]

theorem calcStep_graph (acc : STKSimulation × List (String × Option Value) × Ctx)
    (b : String) :
    (calcStep acc b).1.dependency_graph = acc.1.dependency_graph := by
  unfold calcStep
  repeat' (first | rfl | split | dsimp only)

theorem calcStep_ov (acc : STKSimulation × List (String × Option Value) × Ctx)
    (b : String) :
    (calcStep acc b).1.scenario_overrides = acc.1.scenario_overrides := by
  unfold calcStep
  repeat' (first | rfl | split | dsimp only)

theorem calcFold_graph :
    ∀ (order : List String) (acc : STKSimulation × List (String × Option Value) × Ctx),
    (order.foldl calcStep acc).1.dependency_graph = acc.1.dependency_graph := by
  intro order
  induction order with
  | nil => intro acc; rfl
  | cons b rest ih =>
    intro acc
    simp only [List.foldl_cons]
    rw [ih, calcStep_graph]

theorem calcFold_ov :
    ∀ (order : List String) (acc : STKSimulation × List (String × Option Value) × Ctx),
    (order.foldl calcStep acc).1.scenario_overrides = acc.1.scenario_overrides := by
  intro order
  induction order with
  | nil => intro acc; rfl
  | cons b rest ih =>
    intro acc
    simp only [List.foldl_cons]
    rw [ih, calcStep_ov]

theorem find_strip_congr {s₁ s₂ : STKSimulation}
    (hs : stripVals s₁ = stripVals s₂) (k : String) :
    Option.map stripAttr (s₁.find_attribute_by_id k) =
      Option.map stripAttr (s₂.find_attribute_by_id k) := by
  rw [← find_strip, ← find_strip, hs]

theorem applyOverride_strip_congr {s₁ s₂ : STKSimulation}
    (hs : stripVals s₁ = stripVals s₂) (p : String × Value) :
    stripVals (applyOverride s₁ p) = stripVals (applyOverride s₂ p) := by
  obtain ⟨k, v⟩ := p
  have hfind := find_strip_congr hs k
  cases h₁ : s₁.find_attribute_by_id k with
  | none =>
    rw [h₁] at hfind
    cases h₂ : s₂.find_attribute_by_id k with
    | none => rw [applyOverride_unknown h₁ v, applyOverride_unknown h₂ v]; exact hs
    | some a₂ => rw [h₂] at hfind; simp at hfind
  | some a₁ =>
    rw [h₁] at hfind
    cases h₂ : s₂.find_attribute_by_id k with
    | none => rw [h₂] at hfind; simp at hfind
    | some a₂ =>
      rw [h₂] at hfind
      simp only [Option.map_some', Option.some.injEq] at hfind
      rw [applyOverride_found h₁ v, applyOverride_found h₂ v]
      rw [updAttr_strip s₁ k _ (fun x => stripAttr { x with value := some v })
        (fun a => strip_set_value (some v) a)]
      rw [updAttr_strip s₂ k _ (fun x => stripAttr { x with value := some v })
        (fun a => strip_set_value (some v) a)]
      rw [hs]

theorem applyAll_strip_congr :
    ∀ (l : List (String × Value)) {s₁ s₂ : STKSimulation},
    stripVals s₁ = stripVals s₂ →
    stripVals (l.foldl applyOverride s₁) = stripVals (l.foldl applyOverride s₂) := by
  intro l
  induction l with
  | nil => intro s₁ s₂ hs; exact hs
  | cons p rest ih =>
    intro s₁ s₂ hs
    simp only [List.foldl_cons]
    exact ih (applyOverride_strip_congr hs p)

theorem calculate_attr_strip {a : Attribute} {ctx : Ctx}
    {r : Option Value} {a' : Attribute}
    (h : a.calculate ctx = .ok (r, a')) : stripAttr a' = stripAttr a := by
  unfold Attribute.calculate at h
  cases ht : a.attribute_type with
  | input =>
    rw [ht] at h
    simp only [Except.ok.injEq, Prod.mk.injEq] at h
    rw [← h.2]
  | calculated =>
    rw [ht] at h
    cases hl : a.calculation_logic with
    | none => rw [hl] at h; cases h
    | some f =>
      rw [hl] at h
      dsimp only at h
      cases hr : f (depValues a ctx) a.metadata with
      | none => rw [hr] at h; cases h
      | some rv =>
        rw [hr] at h
        simp only [Except.ok.injEq, Prod.mk.injEq] at h
        rw [← h.2]
        unfold stripAttr
        simp [ht, hl]


theorem calcStep_strip_congr {s₁ s₂ : STKSimulation}
    (hs : stripVals s₁ = stripVals s₂)
    (cv : List (String × Option Value)) (ctx : Ctx) (b : String) :
    (calcStep (s₁, cv, ctx) b).2 = (calcStep (s₂, cv, ctx) b).2 ∧
    stripVals (calcStep (s₁, cv, ctx) b).1 =
      stripVals (calcStep (s₂, cv, ctx) b).1 := by
  have hfind := find_strip_congr hs b
  cases h₁ : s₁.find_attribute_by_id b with
  | none =>
    rw [h₁] at hfind
    cases h₂ : s₂.find_attribute_by_id b with
    | some a₂ => rw [h₂] at hfind; simp at hfind
    | none =>
      unfold calcStep
      rw [h₁, h₂]
      exact ⟨rfl, hs⟩
  | some a₁ =>
    rw [h₁] at hfind
    cases h₂ : s₂.find_attribute_by_id b with
    | none => rw [h₂] at hfind; simp at hfind
    | some a₂ =>
      rw [h₂] at hfind
      simp only [Option.map_some', Option.some.injEq] at hfind
      unfold calcStep
      rw [h₁, h₂]
      dsimp only
      have htype : a₂.attribute_type = a₁.attribute_type := by
        have hc := congrArg Attribute.attribute_type hfind
        rw [stripAttr_type, stripAttr_type] at hc
        exact hc.symm
      cases ht : a₁.attribute_type with
      | input =>
        have ht₂ : a₂.attribute_type = .input := by rw [htype, ht]
        rw [ht₂]
        dsimp only
        have hv : a₁.value = a₂.value := by
          have hc := congrArg Attribute.value hfind
          rw [stripAttr_value_input ht, stripAttr_value_input ht₂] at hc
          exact hc
        rw [hv]
        exact ⟨rfl, hs⟩
      | calculated =>
        have ht₂ : a₂.attribute_type = .calculated := by rw [htype, ht]
        rw [ht₂]
        dsimp only
        have hdeps : a₁.dependencies = a₂.dependencies := by
          have hc := congrArg Attribute.dependencies hfind
          rw [stripAttr_deps, stripAttr_deps] at hc
          exact hc
        rw [hdeps]
        have hcalc : a₁.calculate (fillMissing ctx a₂.dependencies) =
            a₂.calculate (fillMissing ctx a₂.dependencies) :=
          calculate_strip hfind ht _
        rw [hcalc]
        cases hc : a₂.calculate (fillMissing ctx a₂.dependencies) with
        | error e => exact ⟨rfl, hs⟩
        | ok pr =>
          obtain ⟨r, a'⟩ := pr
          dsimp only
          refine ⟨rfl, ?_⟩
          rw [updAttr_strip s₁ b _ (fun _ => stripAttr a') (fun _ => rfl)]
          rw [updAttr_strip s₂ b _ (fun _ => stripAttr a') (fun _ => rfl)]
          rw [hs]

theorem calcStep_selfstrip
    (acc : STKSimulation × List (String × Option Value) × Ctx) (b : String) :
    stripVals (calcStep acc b).1 = stripVals acc.1 := by
  unfold calcStep
  cases h : acc.1.find_attribute_by_id b with
  | none => rfl
  | some a =>
    dsimp only
    cases ht : a.attribute_type with
    | input => rfl
    | calculated =>
      dsimp only
      cases hc : a.calculate (fillMissing acc.2.2 a.dependencies) with
      | error e => rfl
      | ok pr =>
        obtain ⟨r, a'⟩ := pr
        dsimp only
        rw [updAttr_strip acc.1 b _ (fun _ => stripAttr a') (fun _ => rfl)]
        have hstrip : stripAttr a' = stripAttr a := calculate_attr_strip hc
        rw [hstrip]
        refine updAttr_found_fix ?_ _ rfl
        rw [find_strip, h]
        rfl

theorem calcFold_strip_congr :
    ∀ (order : List String) {s₁ s₂ : STKSimulation}
      (cv : List (String × Option Value)) (ctx : Ctx),
    stripVals s₁ = stripVals s₂ →
    (order.foldl calcStep (s₁, cv, ctx)).2 =
      (order.foldl calcStep (s₂, cv, ctx)).2 ∧
    stripVals (order.foldl calcStep (s₁, cv, ctx)).1 =
      stripVals (order.foldl calcStep (s₂, cv, ctx)).1 := by
  intro order
  induction order with
  | nil => intro s₁ s₂ cv ctx hs; exact ⟨rfl, hs⟩
  | cons b rest ih =>
    intro s₁ s₂ cv ctx hs
    obtain ⟨h2, h1⟩ := calcStep_strip_congr hs cv ctx b
    simp only [List.foldl_cons]
    have e₂ : calcStep (s₂, cv, ctx) b =
        ((calcStep (s₂, cv, ctx) b).1, (calcStep (s₁, cv, ctx) b).2) := by
      rw [h2]
    rw [e₂]
    exact ih (calcStep (s₁, cv, ctx) b).2.1 (calcStep (s₁, cv, ctx) b).2.2 h1

theorem calcFold_selfstrip :
    ∀ (order : List String)
      (acc : STKSimulation × List (String × Option Value) × Ctx),
    stripVals (order.foldl calcStep acc).1 = stripVals acc.1 := by
  intro order
  induction order with
  | nil => intro acc; rfl
  | cons b rest ih =>
    intro acc
    simp only [List.foldl_cons]
    rw [ih, calcStep_selfstrip]


theorem validateNode_engine (s : STKSimulation) (st : SimState) :
    (validateNode (s, st)).1 = s := by
  dsimp only [validateNode]
  split <;> rfl

theorem validateNode_cv (s : STKSimulation) (st : SimState) :
    (validateNode (s, st)).2.calculated_values = st.calculated_values := by
  dsimp only [validateNode]
  split <;> rfl

theorem run_simulation_acyclic (sim : STKSimulation) (order : List String)
    (hcyc : find_cycles sim.dependency_graph = [])
    (hord : topological_sort sim.dependency_graph = .ok order) :
    (run_simulation sim).1.calculated_values =
      (order.foldl calcStep
        (sim.scenario_overrides.foldl applyOverride sim, [], [])).2.1 ∧
    (run_simulation sim).2 =
      (order.foldl calcStep
        (sim.scenario_overrides.foldl applyOverride sim, [], [])).1 := by
  have hg1 : (sim.scenario_overrides.foldl applyOverride sim).dependency_graph =
      sim.dependency_graph := applyAll_graph _ _
  have h2 : detectNode (sim.scenario_overrides.foldl applyOverride sim,
      { simulation_id := sim.id, execution_order := [], calculated_values := [],
        cycles_detected := [], status := "initialized", error_message := none,
        metrics := [] }) =
      (sim.scenario_overrides.foldl applyOverride sim,
       { simulation_id := sim.id, execution_order := [], calculated_values := [],
         cycles_detected := [], status := "cycles_clear", error_message := none,
         metrics := [] }) := by
    unfold detectNode
    dsimp only
    rw [hg1, hcyc]
    rfl
  have h4 : calculateNode (sim.scenario_overrides.foldl applyOverride sim,
      { simulation_id := sim.id, execution_order := [], calculated_values := [],
        cycles_detected := [], status := "cycles_clear", error_message := none,
        metrics := [] }) =
      ((order.foldl calcStep
          (sim.scenario_overrides.foldl applyOverride sim, [], [])).1,
       { simulation_id := sim.id, execution_order := order,
         calculated_values := (order.foldl calcStep
           (sim.scenario_overrides.foldl applyOverride sim, [], [])).2.1,
         cycles_detected := [], status := "calculated", error_message := none,
         metrics := [] }) := by
    dsimp only [calculateNode]
    rw [if_neg (by decide : ¬ ("cycles_clear" = "cycles_resolved"))]
    rw [hg1, hord]
  have htail : workflowTail (initNode (sim,
      { simulation_id := sim.id, execution_order := [], calculated_values := [],
        cycles_detected := [], status := "starting", error_message := none,
        metrics := [] })) =
      validateNode ((order.foldl calcStep
          (sim.scenario_overrides.foldl applyOverride sim, [], [])).1,
        { simulation_id := sim.id, execution_order := order,
          calculated_values := (order.foldl calcStep
            (sim.scenario_overrides.foldl applyOverride sim, [], [])).2.1,
          cycles_detected := [], status := "calculated", error_message := none,
          metrics := [] }) := by
    have hin : initNode (sim,
        { simulation_id := sim.id, execution_order := [], calculated_values := [],
          cycles_detected := [], status := "starting", error_message := none,
          metrics := [] }) =
        (sim.scenario_overrides.foldl applyOverride sim,
         { simulation_id := sim.id, execution_order := [],
           calculated_values := [], cycles_detected := [],
           status := "initialized", error_message := none, metrics := [] }) := rfl
    rw [hin]
    unfold workflowTail
    rw [h2]
    dsimp only
    rw [if_pos (by rfl)]
    rw [h4]
  constructor
  · show (invokeWorkflow sim
      { simulation_id := sim.id, execution_order := [], calculated_values := [],
        cycles_detected := [], status := "starting", error_message := none,
        metrics := [] }).2.calculated_values = _
    rw [invokeWorkflow_eq_tail, htail, validateNode_cv]
  · show (invokeWorkflow sim
      { simulation_id := sim.id, execution_order := [], calculated_values := [],
        cycles_detected := [], status := "starting", error_message := none,
        metrics := [] }).1 = _
    rw [invokeWorkflow_eq_tail, htail, validateNode_engine]


/-- C9 (amended): on a model whose dependency graph is well-formed and
acyclic, two successive `run_simulation` calls on the same engine value
produce equal `calculated_values` maps, despite the first run having mutated
the attributes' value fields — the topological pass recomputes every
calculated attribute from the inputs and overrides alone.  For cyclic models
the literal claim fails (`claim_C9_counterexample`): the second run starts
the iterative solver from the first run's mutated values, skips the seeding,
and can converge elsewhere. -/
theorem claim_C9_amended (sim : STKSimulation)
    (hwf : GraphWF sim.dependency_graph)
    (hacyc : Acyclic sim.dependency_graph) :
    (run_simulation (run_simulation sim).2).1.calculated_values =
      (run_simulation sim).1.calculated_values := by
  obtain ⟨order, hord, -, -⟩ :=
    topological_sort_ok sim.dependency_graph hwf hacyc
  have hcyc : find_cycles sim.dependency_graph = [] :=
    (find_cycles_empty_iff sim.dependency_graph hwf).mpr hacyc
  obtain ⟨hcv1, heng⟩ := run_simulation_acyclic sim order hcyc hord
  have hg2 : (run_simulation sim).2.dependency_graph = sim.dependency_graph := by
    rw [heng, calcFold_graph]
    exact applyAll_graph _ _
  have hov2 : (run_simulation sim).2.scenario_overrides =
      sim.scenario_overrides := by
    rw [heng, calcFold_ov]
    exact applyAll_ov _ _
  obtain ⟨hcv2, -⟩ := run_simulation_acyclic (run_simulation sim).2 order
    (by rw [hg2]; exact hcyc) (by rw [hg2]; exact hord)
  rw [hcv1, hcv2, hov2, heng]
  have hstrip : stripVals (sim.scenario_overrides.foldl applyOverride
      (order.foldl calcStep
        (sim.scenario_overrides.foldl applyOverride sim, [], [])).1) =
      stripVals (sim.scenario_overrides.foldl applyOverride sim) := by
    have h1 : stripVals (order.foldl calcStep
        (sim.scenario_overrides.foldl applyOverride sim, [], [])).1 =
        stripVals (sim.scenario_overrides.foldl applyOverride sim) :=
      calcFold_selfstrip order _
    have h2 := applyAll_strip_congr sim.scenario_overrides h1
    rw [h2]
    have h3 : sim.scenario_overrides.foldl applyOverride
        (sim.scenario_overrides.foldl applyOverride sim) =
        sim.scenario_overrides.foldl applyOverride sim :=
      applyAll_twice sim.scenario_overrides [] sim
    rw [h3]
  exact congrArg Prod.fst (calcFold_strip_congr order [] [] hstrip).1

def simC9w : STKSimulation :=
  ({ id := "s9" } : STKSimulation).add_block
    ((({ id := "b9", name := "b9" } : Block).add_attribute
      { id := "base", name := "base", attribute_type := .input,
        value := some 7 }).add_attribute
      { id := "dbl", name := "dbl", attribute_type := .calculated,
        dependencies := ["base"],
        calculation_logic :=
          some (fun dv _ => (ctxGet dv "base").map (fun x => x + x)) })

theorem claim_C9_amended_witness :
    GraphWF simC9w.dependency_graph ∧
    Acyclic simC9w.dependency_graph ∧
    (run_simulation (run_simulation simC9w).2).1.calculated_values =
      (run_simulation simC9w).1.calculated_values := by
  have hwf : GraphWF simC9w.dependency_graph := by decide
  have hac : Acyclic simC9w.dependency_graph :=
    (find_cycles_empty_iff _ hwf).mp (by decide)
  exact ⟨hwf, hac, claim_C9_amended simC9w hwf hac⟩

set_option maxRecDepth 100000 in
/-- C9 is refuted as literally stated: on the cyclic two-attribute model
`simC9` the first run oscillates and is stabilised from its value history,
while the second run starts from the first run's mutated values, skips the
seeding step, and settles on a different fixed point — the two runs return
different `calculated_values`. -/
theorem claim_C9_counterexample :
    (run_simulation (run_simulation simC9).2).1.calculated_values ≠
      (run_simulation simC9).1.calculated_values := by
  with_unfolding_all decide

end STK
